import Mathlib

/-!
Verification development for the ascend-editor editing core.

The TypeScript source is shallowly embedded: JS strings are modeled as
`List Char`, JS arrays as Lean lists, numbers as `Nat`/`Int` (JS numbers are
exact on the integer ranges exercised here), `null`/`undefined` as `Option`,
and operations that would throw a `TypeError` in JS (reading a property of
`undefined`, e.g. an out-of-bounds array element) are modeled by returning
`none` from an `Option`-valued function.  Mutation is modeled by returning
the updated value.
-/

namespace Ascend

/-- JS strings are modeled as lists of characters. -/
abbrev Str := List Char

/-! ## Serialization primitives (src/main.ts `setValue` / `getValue`)

`setValue` splits the incoming text with `text.split(/\r?\n/g)`; `getValue`
joins the buffer's line texts with `"\n"`. -/

/-- `code.split(/\r?\n/g)`: the regex matches a `"\r\n"` pair or a lone
`"\n"` (a lone `"\r"` is not a separator, since the `\n` is mandatory). -/
def jsSplitLines : Str → List Str
  | [] => [[]]
  | [c] => if c = '\n' then [[], []] else [[c]]
  | c1 :: c2 :: rest =>
    if c1 = '\r' ∧ c2 = '\n' then [] :: jsSplitLines rest
    else if c1 = '\n' then [] :: jsSplitLines (c2 :: rest)
    else
      match jsSplitLines (c2 :: rest) with
      | [] => [[c1]]
      | l :: ls => (c1 :: l) :: ls

/-- `lines.join("\n")`. -/
def joinNL : List Str → Str
  | [] => []
  | [l] => l
  | l :: ls => l ++ '\n' :: joinNL ls

/-- The spec's normal form: every `"\r\n"` sequence replaced by `"\n"`,
everything else (including a lone `"\r"`) untouched. -/
def normalizeCRLF : Str → Str
  | [] => []
  | [c] => [c]
  | c1 :: c2 :: rest =>
    if c1 = '\r' ∧ c2 = '\n' then '\n' :: normalizeCRLF rest
    else c1 :: normalizeCRLF (c2 :: rest)

/-! ## Line data model (src/editor/core/line.ts)

A `Line` holds the text, the style-run array (the JS code stores runs as a
flat array alternating text and style; a run is modeled as a pair), the
optional mark list, and the cached parser state.  Parser states are opaque
to the document model (they are only ever copied or cleared), so they are
represented by an abstract numeric token. -/

/-- A text mark `{from, to, style}`; `to == null` means "to end of line".
Offsets are JS numbers, so they are modeled as `Int` (the mark-adjustment
arithmetic in `Line.replace` can produce negative offsets). -/
structure Mark where
  mfrom : Int
  mto : Option Int
  style : String
deriving DecidableEq, Repr

/-- One style run: a text fragment plus its style label (`null` = unstyled). -/
structure Run where
  text : Str
  style : Option String
deriving DecidableEq, Repr

structure Line where
  text : Str
  styles : List Run
  marked : Option (List Mark)
  stateAfter : Option Nat
deriving DecidableEq, Repr

/-- `new Line(text)` (no styles argument): styles default to `[text, null]`. -/
def Line.ofText (t : Str) : Line := ⟨t, [⟨t, none⟩], none, none⟩

/-- `new Line(text, styles)` with an explicit styles argument. -/
def Line.mkStyled (t : Str) (st : List Run) : Line := ⟨t, st, none, none⟩

/-- Total length of the text fragments of a run list. -/
def runsLen (rs : List Run) : Nat := (rs.map (·.text.length)).sum

/-- The StyleRun invariant: the fragments concatenate to the line's text, so
their lengths sum to the text length. -/
def Line.stylesOk (l : Line) : Prop := runsLen l.styles = l.text.length

instance (l : Line) : Decidable l.stylesOk := Nat.decEq (runsLen l.styles) l.text.length

/-- A demonstration tokenizer (one character per token, no style) used to
instantiate hypotheses at concrete inputs. -/
def demoTok : Unit → Str → Nat → Unit × Nat × Option String :=
  fun _ _ pos => ((), pos + 1, none)

/-! ### `copyStyles` (src/utils/helpers.ts)

The JS function walks the source runs with a character position `pos` and a
state flag (`0` = before `from`, `1` = inside `[from, to)`), pushing the
clipped fragments into `dest`.  The loop runs while `pos < to`; exhausting
the source array ends the loop (in JS the `NaN` arithmetic on the missing
part makes every comparison false). -/

def copyStylesAux (frm toc : Nat) : List Run → Nat → Bool → List Run
  | [], _, _ => []
  | r :: rest, pos, inside =>
    if pos < toc then
      let e := pos + r.text.length
      if inside then
        (if toc < e then [⟨r.text.take (toc - pos), r.style⟩] else [r]) ++
          copyStylesAux frm toc rest e true
      else
        (if frm < e then
          [⟨(r.text.drop (frm - pos)).take (min r.text.length (toc - pos) - (frm - pos)),
            r.style⟩]
         else []) ++
          copyStylesAux frm toc rest e (decide (frm ≤ e))
    else []

/-- `copyStyles(from, to, source, dest)`; the model returns the fragments
appended to `dest` by the call. -/
def copyStyles (frm toc : Nat) (source : List Run) : List Run :=
  copyStylesAux frm toc source 0 false

/-! ### `Line.replace` mark adjustment -/

/-- The `fix` helper inside `Line.replace`:
`n <= Math.min(to, to + diff) ? n : n + diff`. -/
def replFix (toc diff n : Int) : Int := if n ≤ min toc (toc + diff) then n else n + diff

/-- Is the post-adjustment mark empty?  JS tests `mark.from >= mark.to`; when
`mark.to` is `null` the relational comparison coerces `null` to `0`. -/
def markEmptyJS (m : Mark) : Bool :=
  match m.mto with
  | some t => m.mfrom ≥ t
  | none => m.mfrom ≥ 0

/-- The mark-adjustment loop of `Line.replace`: marks starting at or past the
new end are deleted; otherwise both offsets are passed through `fix`; marks
that end up empty are deleted. -/
def replAdjustMarks (endL toc diff : Int) : List Mark → List Mark
  | [] => []
  | m :: rest =>
    if m.mfrom ≥ endL then replAdjustMarks endL toc diff rest
    else
      let m1 : Mark := ⟨replFix toc diff m.mfrom, m.mto.map (replFix toc diff), m.style⟩
      if markEmptyJS m1 then replAdjustMarks endL toc diff rest
      else m1 :: replAdjustMarks endL toc diff rest

/-- `Line.replace(from, to, text)`: rebuilds the style runs from the
unaffected prefix, the new unstyled fragment, and the unaffected suffix;
splices the text; adjusts the marks; clears `stateAfter`. -/
def Line.replace (l : Line) (frm toc : Nat) (txt : Str) : Line :=
  let st := copyStyles 0 frm l.styles ++
    (if txt = [] then [] else [⟨txt, none⟩]) ++
    copyStyles toc l.text.length l.styles
  let newText := l.text.take frm ++ txt ++ l.text.drop toc
  let diff : Int := (txt.length : Int) - ((toc : Int) - (frm : Int))
  ⟨newText, st, l.marked.map (replAdjustMarks (newText.length : Int) (toc : Int) diff), none⟩

/-- `Line.split(pos, textBefore)`: returns a new `Line` holding
`textBefore + text.slice(pos)` with styles `[textBefore, null]` followed by
the copied suffix styles.  The constructor leaves `marked` and `stateAfter`
null. -/
def Line.split (l : Line) (pos : Nat) (textBefore : Str) : Line :=
  Line.mkStyled (textBefore ++ l.text.drop pos)
    (⟨textBefore, none⟩ :: copyStyles pos l.text.length l.styles)

/-- The effect of calling the `split` method: the method body only reads
`this` (there is no assignment to any field of `this`), so the call leaves
the receiver as it was and yields the fresh line; the pair (receiver after
the call, returned line) makes that explicit. -/
def Line.splitPair (l : Line) (pos : Nat) (textBefore : Str) : Line × Line :=
  (l, l.split pos textBefore)

/-! ### `Line.removeMark` -/

/-- The JS loose equality `mark.from == mark.to`: false when `mark.to` is
`null` (a number is never loosely equal to `null`). -/
def markFromEqToJS (m : Mark) : Bool :=
  match m.mto with
  | some t => m.mfrom = t
  | none => false

/-- One pass of the `removeMark` loop over the mark list.  `len` is the
line's text length (used to resolve `mark.to == null`).  The four cases of
the source are kept in order; a mark that the removal range splits emits the
inserted right part (which the JS loop skips over via `splice(i++, 0, …)`)
followed by the truncated left part; the final `from == to` check drops
adjusted empty marks. -/
def removeMarkLoop (len frm toc : Int) (style : String) : List Mark → List Mark
  | [] => []
  | m :: rest =>
    if style ≠ "" ∧ m.style ≠ style then m :: removeMarkLoop len frm toc style rest
    else
      let mto : Int := m.mto.getD len
      if m.mfrom ≥ frm ∧ mto ≤ toc then removeMarkLoop len frm toc style rest
      else
        let inserted : List Mark :=
          if m.mfrom < frm ∧ mto > toc then [⟨toc, m.mto, m.style⟩] else []
        let m1 : Mark :=
          if m.mfrom < frm ∧ mto > toc then ⟨m.mfrom, some frm, m.style⟩
          else if mto > frm ∧ m.mfrom < frm then ⟨m.mfrom, some frm, m.style⟩
          else if m.mfrom < toc ∧ mto > toc then ⟨toc, m.mto, m.style⟩
          else m
        inserted ++ (if markFromEqToJS m1 then [] else [m1]) ++
          removeMarkLoop len frm toc style rest

/-- `Line.removeMark(from, to, style)`: `to == null` defaults to the line
length; a line without a mark list is returned unchanged. -/
def Line.removeMark (l : Line) (frm : Int) (toOpt : Option Int) (style : String) : Line :=
  let toc := toOpt.getD (l.text.length : Int)
  match l.marked with
  | none => l
  | some ms => { l with marked := some (removeMarkLoop (l.text.length : Int) frm toc style ms) }

/-! ### `Line.highlight`

The parser's `token(stream, state, atLineStart)` advances the stream and
mutates the state; it is modeled as a function from (state, line text,
stream position) to (new state, new stream position, style).  The JS `while
(!stream.done())` loop terminates only when the token function advances, so
the model carries fuel and returns `none` when the fuel runs out with the
stream not yet done (i.e. when the JS loop would not have terminated within
that many iterations). -/

def highlightAux {σ : Type} (tok : σ → Str → Nat → σ × Nat × Option String) (text : Str) :
    Nat → σ → Nat → List Run → Option (List Run × σ)
  | 0, state, pos, acc => if text.length ≤ pos then some (acc, state) else none
  | fuel + 1, state, pos, acc =>
    if text.length ≤ pos then some (acc, state)
    else
      let r := tok state text pos
      let substr := (text.drop pos).take (r.2.1 - pos)
      let acc1 :=
        match acc.getLast? with
        | some lastRun =>
          if lastRun.style = r.2.2 then acc.dropLast ++ [⟨lastRun.text ++ substr, lastRun.style⟩]
          else if substr ≠ [] then acc ++ [⟨substr, r.2.2⟩] else acc
        | none => if substr ≠ [] then acc ++ [⟨substr, r.2.2⟩] else acc
      highlightAux tok text fuel r.1 r.2.1 acc1

/-- `Line.highlight(parser, state)`: empties the style array and rebuilds it
by tokenizing the text; returns the rebuilt runs and the final state.  The
fuel `text.length + 1` is enough for any strictly advancing tokenizer. -/
def Line.highlightRuns {σ : Type} (tok : σ → Str → Nat → σ × Nat × Option String)
    (l : Line) (state : σ) : Option (List Run × σ) :=
  highlightAux tok l.text (l.text.length + 1) state 0 []

/-! ## `editEnd` (src/utils/helpers.ts)

The JS function scans both strings from their ends (`charAt` past the end
yields `""`, so the first comparison always succeeds) and returns `j + 1`
where `j` is the index in `to` just before the longest common suffix; that
is `to.length` minus the length of the longest common suffix.  Empty
arguments short-circuit: an empty `to` yields `from.length`, an empty
`from` yields `to.length`. -/

def commonPrefixLen : Str → Str → Nat
  | x :: xs, y :: ys => if x = y then commonPrefixLen xs ys + 1 else 0
  | _, _ => 0

def editEnd (frm toS : Str) : Nat :=
  if toS = [] then frm.length
  else if frm = [] then toS.length
  else toS.length - commonPrefixLen frm.reverse toS.reverse

/-! ## History (src/editor/history/history.ts)

`addChange` reads the wall clock (`+new Date`); the model takes the current
time as the explicit argument `now`. -/

/-- One history record `{start, added, old}`: the edit covered lines
`[start, start+added)` of the current document and replaced the line texts
`old`. -/
structure Change where
  start : Nat
  added : Nat
  old : List Str
deriving DecidableEq, Repr

structure History where
  time : Int
  done : List Change
  undone : List Change
deriving DecidableEq, Repr

/-- `new History()`. -/
def History.new : History := ⟨0, [], []⟩

/-- `History.addChange(start, added, old)`: clears the redo stack, then
either pushes a fresh record (when more than 400ms passed, there is no
previous record, or the ranges are apart) or merges into the last `done`
record. -/
def History.addChange (h : History) (now : Int) (start added : Nat) (old : List Str) :
    History :=
  match h.done.getLast? with
  | none => ⟨now, h.done ++ [⟨start, added, old⟩], []⟩
  | some last =>
    if now - h.time > 400 ∨ (last.start : Int) > (start : Int) + (added : Int) ∨
        ((last.start : Int) + (last.added : Int) <
          (start : Int) - (last.added : Int) + (last.old.length : Int)) then
      ⟨now, h.done ++ [⟨start, added, old⟩], []⟩
    else
      let step1 : Change × Nat :=
        if start < last.start then
          (⟨start, last.added + (last.start - start), old.take (last.start - start) ++ last.old⟩,
            added)
        else
          (last, added + (start - last.start))
      let lastB : Change :=
        ⟨step1.1.start, step1.1.added, step1.1.old ++ old.drop step1.1.added⟩
      let lastC : Change :=
        if lastB.added < step1.2 then ⟨lastB.start, step1.2, lastB.old⟩ else lastB
      ⟨now, h.done.dropLast ++ [lastC], []⟩

/-! ## Document model (src/main.ts)

The editor state keeps the fields the verified operations touch: the line
array, the selection, the shift-selection anchor, the history, and the
`undoDepth` option.  Purely visual state (DOM nodes, scroll/viewport
bookkeeping, the `changes` render queue, the background-highlight work list)
is not represented; none of the verified operations read it. -/

/-- A `{line, ch}` position.  Fields are JS numbers, so `Int` (callers may
pass negative or past-the-end coordinates). -/
structure Pos where
  line : Int
  ch : Int
deriving DecidableEq, Repr

/-- `positionLess`. -/
def posLess (a b : Pos) : Bool :=
  a.line < b.line || (a.line == b.line && a.ch < b.ch)

structure Selection where
  sfrom : Pos
  sto : Pos
  inverted : Bool
deriving DecidableEq, Repr

structure EditorState where
  lines : List Line
  selection : Selection
  shiftSelecting : Option Pos
  history : Option History
  undoDepth : Nat
deriving DecidableEq, Repr

/-- JS array indexing `arr[i]`: `undefined` (here `none`) when out of range. -/
def jsIndex (ls : List α) (i : Int) : Option α :=
  if i < 0 then none else ls.get? i.toNat

/-- JS `arr.splice(start, deleteCount, ...items)` for the uses in
`updateLines`: `start` is clamped to the array length and a negative
`deleteCount` deletes nothing. -/
def spliceList (l : List α) (start : Nat) (delCount : Int) (items : List α) : List α :=
  let s := min start l.length
  let d := min delCount.toNat (l.length - s)
  l.take s ++ items ++ l.drop (s + d)

/-- `setSelection(from, to)`: no-op when the selection is unchanged;
otherwise orders the endpoints, clamps the range around the shift-selecting
anchor when one is active, and recomputes the inversion flag.  (The change
records pushed for the renderer are not modeled.) -/
def setSelection (st : EditorState) (frm toP : Pos) : EditorState :=
  if st.selection.sfrom = frm ∧ st.selection.sto = toP then st
  else
    let sel := st.selection
    let p1 := if posLess toP frm then (toP, frm) else (frm, toP)
    let p2 :=
      match st.shiftSelecting with
      | some sh =>
        if posLess sh p1.1 then (sh, p1.2)
        else if posLess p1.2 sh then (p1.1, sh)
        else p1
      | none => p1
    let startEq := sel.sto = p2.2
    let endEq := sel.sfrom = p2.1
    let inverted :=
      if p2.1 = p2.2 then false
      else if startEq ∧ ¬endEq then true
      else if endEq ∧ ¬startEq then false
      else sel.inverted
    { st with selection := ⟨p2.1, p2.2, inverted⟩ }

/-- Character-position guard for `Line.replace` arguments: the verified
call sites always pass clipped positions, for which `0 ≤ ch ≤ text.length`;
anything else would make JS's negative-index `slice` semantics scramble the
line, so the model reports it as failure. -/
def chClip (ch : Int) (l : Line) : Option Nat :=
  if 0 ≤ ch ∧ ch ≤ (l.text.length : Int) then some ch.toNat else none

/-- `updateLines(from, to, newText, selFrom, selTo)`: the three splice
shapes of the source (single line edit, many→one, many→many), followed by
the `setSelection` call.  (The work-queue bookkeeping, render change
records, and DOM height update are not modeled.) -/
def updateLines (st : EditorState) (frm toP : Pos) (newText : List Str)
    (selF selT : Pos) : Option EditorState :=
  match jsIndex st.lines frm.line, jsIndex st.lines toP.line with
  | some firstLine, some lastLine =>
    match chClip frm.ch firstLine, chClip toP.ch lastLine with
    | some fch, some tch =>
      if newText = [] then none
      else
        let fl := frm.line.toNat
        let tl := toP.line.toNat
        let nLines : Int := toP.line - frm.line
        let lines1 :=
          if frm.line = toP.line then
            if newText.length = 1 then
              st.lines.set fl (firstLine.replace fch tch (newText.headD []))
            else
              let lastL := firstLine.split tch (newText.getLastD [])
              let first1 := firstLine.replace fch firstLine.text.length (newText.headD [])
              let mids := ((newText.drop 1).dropLast).map Line.ofText
              spliceList (st.lines.set fl first1) (fl + 1) nLines (mids ++ [lastL])
          else if newText.length = 1 then
            let first1 := firstLine.replace fch firstLine.text.length
              ((newText.headD []) ++ lastLine.text.drop tch)
            spliceList (st.lines.set fl first1) (fl + 1) nLines []
          else
            let first1 := firstLine.replace fch firstLine.text.length (newText.headD [])
            let last1 := lastLine.replace 0 tch (newText.getLastD [])
            let mids := ((newText.drop 1).dropLast).map Line.ofText
            spliceList ((st.lines.set fl first1).set tl last1) (fl + 1) (nLines - 1) mids
        some (setSelection { st with lines := lines1 } selF selT)
    | _, _ => none
  | _, _ => none

/-- The body of the `for (i = from.line; i < to.line + 1; i++)` text-gather
loops: `c` iterations remain, `i` is the current index; each iteration reads
`lines[i].text` (throwing on a missing line). -/
def gatherTextsAux (ls : List Line) : Nat → Int → Option (List Str)
  | 0, _ => some []
  | c + 1, i =>
    match jsIndex ls i with
    | none => none
    | some l =>
      match gatherTextsAux ls c (i + 1) with
      | none => none
      | some rest => some (l.text :: rest)

/-- The line texts of lines `a..b` (inclusive). -/
def gatherTexts (ls : List Line) (a b : Int) : Option (List Str) :=
  gatherTextsAux ls (b + 1 - a).toNat a

/-- `replaceLines(from, to, newText, selFrom, selTo)` with a string
argument: splits on `/\r?\n/g`, records the change in the history (when
enabled) and trims the `done` stack to `undoDepth`, then updates the
lines. -/
def replaceLines (st : EditorState) (now : Int) (frm toP : Pos) (code : Str)
    (selF selT : Pos) : Option EditorState :=
  let newText := jsSplitLines code
  match st.history with
  | none => updateLines st frm toP newText selF selT
  | some h =>
    match gatherTexts st.lines frm.line toP.line with
    | none => none
    | some old =>
      let h1 := h.addChange now frm.line.toNat newText.length old
      let h2 : History := ⟨h1.time, h1.done.drop (h1.done.length - st.undoDepth), h1.undone⟩
      updateLines { st with history := some h2 } frm toP newText selF selT

/-- `setValue(code)`: disables the history, replaces the whole document,
then installs a fresh history. -/
def setValue (st : EditorState) (code : Str) : Option EditorState :=
  let lastIx : Int := (st.lines.length : Int) - 1
  match jsIndex st.lines lastIx with
  | none => none
  | some lastLine =>
    match replaceLines { st with history := none } 0 ⟨0, 0⟩
      ⟨lastIx, (lastLine.text.length : Int)⟩ code ⟨0, 0⟩ ⟨0, 0⟩ with
    | none => none
    | some st1 => some { st1 with history := some History.new }

/-- `getValue()`: join the line texts with `"\n"`. -/
def getValue (st : EditorState) : Str := joinNL (st.lines.map (·.text))

/-- `clipPosition(pos)`: clamp the line into `[0, lines.length-1]` and the
column into `[0, lineLength]`.  On an empty buffer the JS code would read
`this.lines[0].text` of `undefined` and throw, hence the `Option`. -/
def clipPosition (st : EditorState) (p : Pos) : Option Pos :=
  let ln : Int := max 0 (min ((st.lines.length : Int) - 1) p.line)
  match jsIndex st.lines ln with
  | none => none
  | some l => some ⟨ln, max 0 (min ((l.text.length : Int)) p.ch)⟩

/-- The end-of-inserted-text position computed inside `replaceRange1`:
`newLine` ends as the index of the last `"\n"` of `code` (`-1` when there is
none), `nls` counts the newlines after the first one, and
`diff = to.line - from.line + 1 - nls`. -/
def replEndPos (code : Str) (frm toP : Pos) : Pos :=
  let nlIdx : List Nat := ((code.enum).filter (fun p => p.2 = '\n')).map (·.1)
  let lastNl : Int := match nlIdx.getLast? with | none => -1 | some i => (i : Int)
  let nls : Nat := nlIdx.length - 1
  let endCh : Int := if lastNl = -1 then (code.length : Int)
    else (code.length : Int) - lastNl - 1
  let diff : Int := toP.line - frm.line + 1 - (nls : Int)
  ⟨toP.line + diff, endCh⟩

/-- The `adjustPos` helper of `replaceRange`: positions before the replaced
range are unchanged, positions inside it collapse to the end of the
insertion, and later positions are shifted. -/
def adjustPos (frm toP end1 : Pos) (pos : Pos) : Pos :=
  if posLess pos frm then pos
  else if posLess pos toP then end1
  else if pos.line = toP.line then ⟨end1.line, pos.ch + end1.ch - toP.ch⟩
  else ⟨pos.line + end1.line - toP.line, pos.ch⟩

/-- `replaceRange(code, from, to)`: clips both positions, adjusts the
selection via `adjustPos` against the computed insertion end, and performs
the edit through `replaceLines` (the body of `replaceRange1` is inlined:
its only caller-visible effects are the computed end position and the
`replaceLines` call).  Returns the new state and the returned `end1`. -/
def replaceRange (st : EditorState) (now : Int) (code : Str) (p1 p2 : Pos) :
    Option (EditorState × Pos) :=
  match clipPosition st p1, clipPosition st p2 with
  | some frm, some toP =>
    let end1 := replEndPos code frm toP
    let sf := adjustPos frm toP end1 st.selection.sfrom
    let stt := adjustPos frm toP end1 st.selection.sto
    match replaceLines st now frm toP code sf stt with
    | none => none
    | some st1 => some (st1, end1)
  | _, _ => none

/-- `undo()` = `unredoHelper(history.done, history.undone)`: pop the last
`done` record, capture the current texts of its range, compute the cursor
from the longest-common-suffix boundary (`editEnd`), and write the record's
`old` lines back over the range.  Note the source never pushes the inverse
record onto the destination stack (the `to` parameter of `unredoHelper` is
unused), so `undone` is left as it was.  A `null` history would make
`unredoHelper` call `pop()` on `undefined` and throw, hence the `Option`. -/
def undo (st : EditorState) : Option EditorState :=
  match st.history with
  | none => none
  | some h =>
    match h.done.getLast? with
    | none => some st
    | some change =>
      let st1 := { st with history := some ⟨h.time, h.done.dropLast, h.undone⟩ }
      let endN : Int := (change.start : Int) + (change.added : Int)
      match gatherTexts st.lines (change.start : Int) (endN - 1), change.old.getLast?,
          jsIndex st.lines (endN - 1) with
      | some replaced, some olast, some lastLine =>
        let ch : Nat :=
          match replaced.getLast? with
          | none => olast.length
          | some r => editEnd r olast
        let pos : Pos := ⟨(change.start : Int) + (change.old.length : Int) - 1, (ch : Int)⟩
        updateLines st1 ⟨(change.start : Int), 0⟩ ⟨endN - 1, (lastLine.text.length : Int)⟩
          change.old pos pos
      | _, _, _ => none

/-! ## `getStateBefore` (src/main.ts)

Only the per-line text, the cached `stateAfter`, and the work queue matter
here, so the model uses a reduced line record parameterized by the parser
state type `σ`.  `Line.highlight(parser, state)` advances the state across
the line's text (besides rebuilding the style runs, which this reduced
model does not carry); it is abstracted as a transition function
`tok : σ → Str → σ` giving the state after tokenizing a whole line. -/

structure HLine (σ : Type) where
  text : Str
  stateAfter : Option σ
deriving DecidableEq, Repr

/-- The backward-search loop of `getStateBefore`, counting `search` down
from `n - 1` (the argument is `search + 1`, so `0` is the `search < 0`
exit).  Results: `none` = the JS code would throw (line missing);
`some none` = the `lim > search` early `return null`; `some (resume, st)` =
found a usable state, resume highlighting at line `resume`. -/
def backSearch {σ : Type} (ls : List (HLine σ)) (startSt : σ) (lim : Int) :
    Nat → Option (Option (Nat × σ))
  | 0 => some (some (0, startSt))
  | s + 1 =>
    if (s : Int) < lim then some none
    else
      match ls.get? s with
      | none => none
      | some hl =>
        match hl.stateAfter with
        | some st => some (some (s + 1, st))
        | none => backSearch ls startSt lim s

/-- The forward re-highlight loop of `getStateBefore`: starting at line `i`,
tokenize `count` lines, caching `stateAfter` on each. -/
def backfill {σ : Type} (tok : σ → Str → σ) :
    List (HLine σ) → Nat → Nat → σ → Option (List (HLine σ) × σ)
  | ls, _, 0, st => some (ls, st)
  | ls, i, c + 1, st =>
    match ls.get? i with
    | none => none
    | some hl =>
      let st1 := tok st hl.text
      backfill tok (ls.set i ⟨hl.text, some st1⟩) (i + 1) c st1

/-- `getStateBefore(n)`: search backward from `n - 1` down to `n - 40` for a
cached state (falling back to the parser's start state at the document
start); past the bound return `null` immediately (the early `return null`
skips the rest of the function).  On success, re-highlight and cache the
intervening lines, push `n` onto the work queue when line `n` is still
uncached, and return the state immediately preceding line `n`. -/
def getStateBefore {σ : Type} (tok : σ → Str → σ) (startSt : σ)
    (ls : List (HLine σ)) (work : List Nat) (n : Nat) :
    Option (Option σ × List (HLine σ) × List Nat) :=
  match backSearch ls startSt ((n : Int) - 40) n with
  | none => none
  | some none => some (none, ls, work)
  | some (some (resume, st0)) =>
    match backfill tok ls resume (n - resume) st0 with
    | none => none
    | some fb =>
      match fb.1.get? n with
      | none => none
      | some lineN =>
        let work1 := if lineN.stateAfter.isNone then work ++ [n] else work
        some (some fb.2, fb.1, work1)

/-! ## Multi-line literal search (src/editor/search/searchCursor.ts)

The multi-line `matches` closure built by `initializeStringSearch`.  It
reads `this.lines` (note: the `SearchCursor` class initializes
`private lines: Line[] = []` and never assigns it from the editor; the model
takes the line texts as the `lines` parameter).  `fold` is the case-folding
function (`toLowerCase` or identity); `target` is the query split on
`"\n"`. -/

/-- JS `string.indexOf(sub)`: smallest index with `sub` at it, else `-1`. -/
def jsIndexOf (s sub : Str) : Int :=
  match (List.range (s.length + 1)).find? (fun i => sub.isPrefixOf (s.drop i)) with
  | some i => (i : Int)
  | none => -1

/-- JS `string.lastIndexOf(sub)`: largest index with `sub` at it, else `-1`. -/
def jsLastIndexOf (s sub : Str) : Int :=
  match ((List.range (s.length + 1)).filter (fun i => sub.isPrefixOf (s.drop i))).getLast?
    with
  | some i => (i : Int)
  | none => -1

/-- The `while (true)` loop of the multi-line matcher.  `ln` and `idx` are
the current line index and the query-fragment index; the source reads
`target[reverse ? idx-- : idx++]`, a POST-increment, so each iteration uses
the old `idx` and then moves it.  `some none` = no match from this start;
`none` = the JS code would throw (out-of-range access). -/
def multiMatchLoop (lines target : List Str) (fold : Str → Str) (reverse : Bool)
    (posLine offsetA : Int) : Nat → Int → Int → Option (Option (Pos × Pos))
  | 0, _, _ => none
  | fuel + 1, ln, idx =>
    if (if reverse then ln = 0 else ln = (lines.length : Int) - 1) then some none
    else
      let ln1 := ln + (if reverse then -1 else 1)
      match jsIndex lines ln1 with
      | none => none
      | some ltxt =>
        let line := fold ltxt
        match jsIndex target idx with
        | none => none
        | some mtch =>
          let idx1 := idx + (if reverse then -1 else 1)
          if 0 < idx1 ∧ idx1 < (target.length : Int) - 1 then
            if line ≠ mtch then some none
            else multiMatchLoop lines target fold reverse posLine offsetA fuel ln1 idx1
          else
            let offsetB : Int :=
              if reverse then jsLastIndexOf line mtch
              else jsIndexOf line mtch + mtch.length
            if (if reverse then offsetB ≠ (line.length : Int) - (mtch.length : Int)
                else offsetB ≠ (mtch.length : Int)) then some none
            else
              let start : Pos := ⟨posLine, offsetA⟩
              let endP : Pos := ⟨ln1, offsetB⟩
              some (some (if reverse then (endP, start) else (start, endP)))

/-- The multi-line `matches(reverse, pos)` closure: checks the edge
alignment of the first fragment on the starting line, then walks the
following (forward) or preceding (reverse) lines. -/
def multiMatch (lines target : List Str) (fold : Str → Str) (reverse : Bool)
    (pos : Pos) : Option (Option (Pos × Pos)) :=
  match jsIndex lines pos.line with
  | none => none
  | some l0 =>
    let line := fold l0
    let idx : Int := if reverse then (target.length : Int) - 1 else 0
    match jsIndex target idx with
    | none => none
    | some mtch =>
      let offsetA : Int :=
        if reverse then jsIndexOf line mtch + mtch.length
        else jsLastIndexOf line mtch
      if (if reverse then offsetA ≥ pos.ch ∨ offsetA ≠ (mtch.length : Int)
          else offsetA ≤ pos.ch ∨ offsetA ≠ (line.length : Int) - (mtch.length : Int)) then
        some none
      else
        multiMatchLoop lines target fold reverse pos.line offsetA
          (target.length + 1) pos.line idx

/-! ## Spec-side definitions for refinement comparisons -/

/-- Claim C6's adjustment rule, taken verbatim from the claim's words:
"every mark offset that is AT LEAST `min(to, to+diff)` is shifted by
`diff`" (the source shifts only offsets STRICTLY greater than the
minimum). -/
def claimFix (toc diff n : Int) : Int := if n < min toc (toc + diff) then n else n + diff

/-- Mark adjustment as claim C6 words it: delete marks starting at or past
the post-edit length, shift offsets `≥ min(to, to+diff)` (via `claimFix`),
delete marks that became empty. -/
def claimAdjustMarks (endL toc diff : Int) (ms : List Mark) : List Mark :=
  ms.filterMap fun m =>
    if m.mfrom ≥ endL then none
    else
      let m1 : Mark := ⟨claimFix toc diff m.mfrom, m.mto.map (claimFix toc diff), m.style⟩
      if markEmptyJS m1 then none else some m1

/-- The amended adjustment rule (what the source does): identical to
`claimAdjustMarks` except that only offsets STRICTLY greater than
`min(to, to+diff)` are shifted. -/
def amendedAdjustMarks (endL toc diff : Int) (ms : List Mark) : List Mark :=
  ms.filterMap fun m =>
    if m.mfrom ≥ endL then none
    else
      let m1 : Mark := ⟨replFix toc diff m.mfrom, m.mto.map (replFix toc diff), m.style⟩
      if markEmptyJS m1 then none else some m1

/-! ## Concrete demonstration values (used by witnesses and
counterexamples) -/

/-- A line `"abcdef"` carrying one mark `[1, 5)` with style `"s"`. -/
def demoLine5 : Line :=
  ⟨("abcdef".toList), [⟨("abcdef".toList), none⟩], some [⟨1, some 5, "s"⟩], none⟩

/-- A line `"abcd"` carrying one mark `[2, 4)` with style `"s"`. -/
def demoLineC6 : Line :=
  ⟨("abcd".toList), [⟨("abcd".toList), none⟩], some [⟨2, some 4, "s"⟩], none⟩

/-- A freshly constructed editor: one empty line, collapsed selection at the
origin, no shift anchor, fresh history, default `undoDepth` 40. -/
def demoState : EditorState :=
  ⟨[Line.ofText []], ⟨⟨0, 0⟩, ⟨0, 0⟩, false⟩, none, some History.new, 40⟩

/-- `demoState` holding the single line `"abc"`. -/
def demoStateAbc : EditorState :=
  ⟨[Line.ofText ("abc".toList)], ⟨⟨0, 0⟩, ⟨0, 0⟩, false⟩, none, some History.new, 40⟩

theorem jsSplitLines_ne_nil (s : Str) : jsSplitLines s ≠ [] := by
  induction s using jsSplitLines.induct with
  | case1 => simp [jsSplitLines]
  | case2 => simp [jsSplitLines]
  | case3 c h => simp [jsSplitLines, h]
  | case4 c1 c2 rest h ih => simp [jsSplitLines, if_pos h]
  | case5 c2 rest h ih => simp [jsSplitLines, if_neg h]
  | case6 c1 c2 rest h1 h2 hs ih =>
    simp only [jsSplitLines, if_neg h1, if_neg h2, hs]
    simp
  | case7 c1 c2 rest h1 h2 l ls hs ih =>
    simp only [jsSplitLines, if_neg h1, if_neg h2, hs]
    simp

theorem joinNL_cons_of_ne_nil (x : Str) (ls : List Str) (h : ls ≠ []) :
    joinNL (x :: ls) = x ++ '\n' :: joinNL ls := by
  cases ls with
  | nil => exact absurd rfl h
  | cons a as => rfl

/-- Joining the split lines with `"\n"` yields the CRLF-normalized input. -/
theorem joinNL_jsSplitLines (s : Str) :
    joinNL (jsSplitLines s) = normalizeCRLF s := by
  induction s using jsSplitLines.induct with
  | case1 => rfl
  | case2 => rfl
  | case3 c h => simp [jsSplitLines, normalizeCRLF, h, joinNL]
  | case4 c1 c2 rest h ih =>
    simp only [jsSplitLines, normalizeCRLF, if_pos h]
    rw [joinNL_cons_of_ne_nil _ _ (jsSplitLines_ne_nil rest), ih]
    rfl
  | case5 c2 rest h ih =>
    have hsplit : jsSplitLines ('\n' :: c2 :: rest) = [] :: jsSplitLines (c2 :: rest) := by
      simp [jsSplitLines, h]
    rw [hsplit, joinNL_cons_of_ne_nil _ _ (jsSplitLines_ne_nil (c2 :: rest)), ih]
    simp [normalizeCRLF, h]
  | case6 c1 c2 rest h1 h2 hs ih =>
    exact absurd hs (jsSplitLines_ne_nil (c2 :: rest))
  | case7 c1 c2 rest h1 h2 l ls hs ih =>
    simp only [jsSplitLines, normalizeCRLF, if_neg h1, if_neg h2, hs]
    rw [hs] at ih
    cases ls with
    | nil => simpa [joinNL] using ih
    | cons m ms =>
      rw [joinNL_cons_of_ne_nil _ _ (by simp)] at ih
      rw [joinNL_cons_of_ne_nil _ _ (by simp)]
      simp only [List.cons_append]
      rw [ih]

/-! ## Style-run length lemmas -/

theorem runsLen_nil : runsLen [] = 0 := rfl

theorem runsLen_cons (r : Run) (rest : List Run) :
    runsLen (r :: rest) = r.text.length + runsLen rest := by
  simp [runsLen]

theorem runsLen_append (a b : List Run) : runsLen (a ++ b) = runsLen a + runsLen b := by
  simp [runsLen]

theorem copyStylesAux_stop (frm toc : Nat) (src : List Run) (pos : Nat) (b : Bool)
    (h : ¬ pos < toc) : copyStylesAux frm toc src pos b = [] := by
  cases src with
  | nil => rfl
  | cons r rest => simp [copyStylesAux, h]

theorem copyStylesAux_cons_inside (frm toc : Nat) (r : Run) (rest : List Run)
    (pos : Nat) (h : pos < toc) :
    copyStylesAux frm toc (r :: rest) pos true =
      (if toc < pos + r.text.length then [⟨r.text.take (toc - pos), r.style⟩] else [r]) ++
        copyStylesAux frm toc rest (pos + r.text.length) true := by
  simp [copyStylesAux, h]

theorem copyStylesAux_cons_before (frm toc : Nat) (r : Run) (rest : List Run)
    (pos : Nat) (h : pos < toc) :
    copyStylesAux frm toc (r :: rest) pos false =
      (if frm < pos + r.text.length then
        [⟨(r.text.drop (frm - pos)).take (min r.text.length (toc - pos) - (frm - pos)),
          r.style⟩]
       else []) ++
        copyStylesAux frm toc rest (pos + r.text.length)
          (decide (frm ≤ pos + r.text.length)) := by
  simp [copyStylesAux, h]

theorem runsLen_copyStylesAux_inside (toc : Nat) :
    ∀ (src : List Run) (frm pos : Nat), pos ≤ toc → toc ≤ pos + runsLen src →
      runsLen (copyStylesAux frm toc src pos true) = toc - pos := by
  intro src
  induction src with
  | nil =>
    intro frm pos h1 h2
    simp only [runsLen_nil, Nat.add_zero] at h2
    simp [copyStylesAux, runsLen]
    omega
  | cons r rest ih =>
    intro frm pos h1 h2
    rw [runsLen_cons] at h2
    by_cases hp : pos < toc
    · rw [copyStylesAux_cons_inside frm toc r rest pos hp]
      by_cases he : toc < pos + r.text.length
      · rw [if_pos he, copyStylesAux_stop _ _ _ _ _ (by omega)]
        simp [runsLen, List.length_take]
        omega
      · rw [if_neg he, runsLen_append, runsLen_cons, runsLen_nil,
          ih frm (pos + r.text.length) (by omega) (by omega)]
        omega
    · rw [copyStylesAux_stop _ _ _ _ _ hp]
      simp [runsLen]
      omega

theorem runsLen_copyStylesAux_before (toc : Nat) :
    ∀ (src : List Run) (frm pos : Nat), pos ≤ frm → frm ≤ toc →
      toc ≤ pos + runsLen src →
      runsLen (copyStylesAux frm toc src pos false) = toc - frm := by
  intro src
  induction src with
  | nil =>
    intro frm pos h1 h2 h3
    simp only [runsLen_nil, Nat.add_zero] at h3
    simp [copyStylesAux, runsLen]
    omega
  | cons r rest ih =>
    intro frm pos h1 h2 h3
    rw [runsLen_cons] at h3
    by_cases hp : pos < toc
    · rw [copyStylesAux_cons_before frm toc r rest pos hp]
      by_cases hf : frm < pos + r.text.length
      · have hd : decide (frm ≤ pos + r.text.length) = true := by
          simp only [decide_eq_true_eq]
          omega
        rw [if_pos hf, hd]
        by_cases he : toc ≤ pos + r.text.length
        · rw [copyStylesAux_stop _ _ _ _ _ (by omega)]
          simp [runsLen, List.length_take, List.length_drop]
          omega
        · rw [runsLen_append,
            runsLen_copyStylesAux_inside toc rest frm (pos + r.text.length)
              (by omega) (by omega)]
          simp [runsLen, List.length_take, List.length_drop]
          omega
      · by_cases he : frm ≤ pos + r.text.length
        · have hd : decide (frm ≤ pos + r.text.length) = true := by
            simp only [decide_eq_true_eq]
            omega
          rw [if_neg hf, hd, List.nil_append,
            runsLen_copyStylesAux_inside toc rest frm (pos + r.text.length)
              (by omega) (by omega)]
          omega
        · have hd : decide (frm ≤ pos + r.text.length) = false := by
            simp only [decide_eq_false_iff_not]
            omega
          rw [if_neg hf, hd, List.nil_append]
          exact ih frm (pos + r.text.length) (by omega) h2 (by omega)
    · rw [copyStylesAux_stop _ _ _ _ _ hp]
      simp [runsLen]
      omega

theorem runsLen_copyStyles (frm toc : Nat) (src : List Run)
    (h1 : frm ≤ toc) (h2 : toc ≤ runsLen src) :
    runsLen (copyStyles frm toc src) = toc - frm :=
  runsLen_copyStylesAux_before toc src frm 0 (Nat.zero_le _) h1 (by omega)

/-! ## Line-level invariant lemmas -/

theorem Line.replace_text_def (l : Line) (frm toc : Nat) (txt : Str) :
    (l.replace frm toc txt).text = l.text.take frm ++ txt ++ l.text.drop toc := rfl

theorem Line.ofText_stylesOk (t : Str) : (Line.ofText t).stylesOk := by
  simp [Line.ofText, Line.stylesOk, runsLen]

theorem Line.replace_stylesOk (l : Line) (frm toc : Nat) (txt : Str)
    (hok : l.stylesOk) (h1 : frm ≤ l.text.length) (h2 : toc ≤ l.text.length) :
    (l.replace frm toc txt).stylesOk := by
  unfold Line.stylesOk at hok ⊢
  show runsLen (copyStyles 0 frm l.styles ++ _ ++ copyStyles toc l.text.length l.styles) =
    (l.text.take frm ++ txt ++ l.text.drop toc).length
  rw [runsLen_append, runsLen_append]
  rw [runsLen_copyStyles 0 frm l.styles (Nat.zero_le _) (by omega)]
  rw [runsLen_copyStyles toc l.text.length l.styles h2 (by omega)]
  have htxt : runsLen (if txt = [] then [] else [(⟨txt, none⟩ : Run)]) = txt.length := by
    by_cases ht : txt = []
    · simp [ht, runsLen]
    · simp [ht, runsLen]
  rw [htxt]
  simp [List.length_take, List.length_drop]
  omega

theorem Line.split_stylesOk (l : Line) (pos : Nat) (tb : Str)
    (hok : l.stylesOk) (hpos : pos ≤ l.text.length) :
    (l.split pos tb).stylesOk := by
  unfold Line.stylesOk at hok ⊢
  show runsLen (⟨tb, none⟩ :: copyStyles pos l.text.length l.styles) =
    (tb ++ l.text.drop pos).length
  rw [runsLen_cons, runsLen_copyStyles pos l.text.length l.styles hpos (by omega)]
  simp [List.length_drop]

theorem runsLen_dropLast_getLast (acc : List Run) (r : Run) (h : acc.getLast? = some r) :
    runsLen acc = runsLen acc.dropLast + r.text.length := by
  have hne : acc ≠ [] := by
    intro he
    rw [he] at h
    simp at h
  have := List.dropLast_append_getLast hne
  conv_lhs => rw [← this]
  rw [runsLen_append]
  have : acc.getLast hne = r := by
    have := List.getLast?_eq_getLast acc hne
    rw [h] at this
    exact (Option.some_injective _ this.symm)
  rw [this]
  simp [runsLen]

theorem highlightAux_sum {σ : Type} (tok : σ → Str → Nat → σ × Nat × Option String)
    (text : Str)
    (hadv : ∀ (s : σ) (p : Nat), p < text.length →
      p < (tok s text p).2.1 ∧ (tok s text p).2.1 ≤ text.length) :
    ∀ (fuel : Nat) (st : σ) (pos : Nat) (acc : List Run),
      pos ≤ text.length → runsLen acc = pos → text.length ≤ pos + fuel →
      ∃ out fst, highlightAux tok text fuel st pos acc = some (out, fst) ∧
        runsLen out = text.length := by
  intro fuel
  induction fuel with
  | zero =>
    intro st pos acc h1 h2 h3
    have : pos = text.length := by omega
    subst this
    exact ⟨acc, st, by simp [highlightAux], h2⟩
  | succ f ih =>
    intro st pos acc h1 h2 h3
    by_cases hd : text.length ≤ pos
    · have : pos = text.length := by omega
      subst this
      exact ⟨acc, st, by simp [highlightAux], h2⟩
    · have hlt : pos < text.length := by omega
      obtain ⟨hadv1, hadv2⟩ := hadv st pos hlt
      simp only [highlightAux, if_neg hd]
      set r := tok st text pos with hr
      set substr := (text.drop pos).take (r.2.1 - pos) with hsub
      have hsublen : substr.length = r.2.1 - pos := by
        rw [hsub]
        simp [List.length_take, List.length_drop]
        omega
      have hsubne : substr ≠ [] := by
        intro he
        rw [he] at hsublen
        simp at hsublen
        omega
      have hstep : ∀ acc1 : List Run, runsLen acc1 = r.2.1 →
          ∃ out fst, highlightAux tok text f r.1 r.2.1 acc1 = some (out, fst) ∧
            runsLen out = text.length := by
        intro acc1 hacc1
        exact ih r.1 r.2.1 acc1 hadv2 hacc1 (by omega)
      cases hlast : acc.getLast? with
      | none =>
        simp only [hlast, if_pos hsubne]
        refine hstep (acc ++ [⟨substr, r.2.2⟩]) ?_
        rw [runsLen_append, runsLen_cons, runsLen_nil]
        dsimp only
        omega
      | some lastRun =>
        by_cases hsty : lastRun.style = r.2.2
        · simp only [hlast, if_pos hsty]
          refine hstep (acc.dropLast ++ [⟨lastRun.text ++ substr, lastRun.style⟩]) ?_
          rw [runsLen_append, runsLen_cons, runsLen_nil]
          have hdl := runsLen_dropLast_getLast acc lastRun hlast
          dsimp only
          simp only [List.length_append]
          omega
        · simp only [hlast, if_neg hsty, if_pos hsubne]
          refine hstep (acc ++ [⟨substr, r.2.2⟩]) ?_
          rw [runsLen_append, runsLen_cons, runsLen_nil]
          dsimp only
          omega

/-- C2: for every Line, after any operation that touches it (construction,
`Line.replace`, `Line.split`, `Line.highlight`), the sum of the lengths of
the text fragments in its style-run array equals the length of the line's
text.  For `replace` the edit range must lie inside the line (as every call
site guarantees via clipping); for `highlight` the tokenizer must advance
the stream within bounds (the mode contract), in which case the loop
terminates and the rebuilt runs cover the text. -/
theorem C2_styleRuns_length_invariant :
    (∀ t : Str, (Line.ofText t).stylesOk) ∧
    (∀ (l : Line) (frm toc : Nat) (txt : Str),
      l.stylesOk → frm ≤ l.text.length → toc ≤ l.text.length →
      (l.replace frm toc txt).stylesOk) ∧
    (∀ (l : Line) (pos : Nat) (tb : Str),
      l.stylesOk → pos ≤ l.text.length → (l.split pos tb).stylesOk) ∧
    (∀ (σ : Type) (tok : σ → Str → Nat → σ × Nat × Option String) (l : Line) (st : σ),
      (∀ (s : σ) (p : Nat), p < l.text.length →
        p < (tok s l.text p).2.1 ∧ (tok s l.text p).2.1 ≤ l.text.length) →
      ∃ out fst, l.highlightRuns tok st = some (out, fst) ∧ runsLen out = l.text.length) :=
  ⟨Line.ofText_stylesOk, Line.replace_stylesOk, Line.split_stylesOk,
   fun _ tok l st hadv =>
     highlightAux_sum tok l.text hadv (l.text.length + 1) st 0 [] (Nat.zero_le _) rfl
       (by omega)⟩

/-- Witness for C2 at concrete inputs. -/
theorem C2_styleRuns_length_invariant_witness :
    (Line.ofText ("ab".toList)).stylesOk ∧
    (Line.replace (Line.ofText ("abcd".toList)) 1 3 ("x".toList)).stylesOk ∧
    (Line.split (Line.ofText ("abc".toList)) 1 ("p".toList)).stylesOk ∧
    (∃ out fst,
      (Line.ofText ("ab".toList)).highlightRuns demoTok () = some (out, fst) ∧
      runsLen out = 2) :=
  ⟨C2_styleRuns_length_invariant.1 _,
   C2_styleRuns_length_invariant.2.1 _ 1 3 _ (by decide) (by decide) (by decide),
   C2_styleRuns_length_invariant.2.2.1 _ 1 _ (by decide) (by decide),
   C2_styleRuns_length_invariant.2.2.2 Unit demoTok _ ()
     (fun _ p hp => ⟨Nat.lt_succ_self p, hp⟩)⟩

/-- C10: `Line.split(pos, textBefore)` leaves the receiver completely
unchanged (its text, style runs, marks, and cached state keep their prior
values — the method body never writes to `this`), and the returned new Line
holds `textBefore` plus the suffix of the receiver's text, with an empty
mark list (`marked = null`) and no cached state. -/
theorem C10_split_frame (l : Line) (pos : Nat) (tb : Str) :
    (l.splitPair pos tb).1 = l ∧
    (l.splitPair pos tb).2.text = tb ++ l.text.drop pos ∧
    (l.splitPair pos tb).2.marked = none ∧
    (l.splitPair pos tb).2.stateAfter = none :=
  ⟨rfl, rfl, rfl, rfl⟩

/-! ## `removeMark` lemmas -/

theorem removeMarkLoop_append (len frm toc : Int) (style : String) (xs ys : List Mark) :
    removeMarkLoop len frm toc style (xs ++ ys) =
      removeMarkLoop len frm toc style xs ++ removeMarkLoop len frm toc style ys := by
  induction xs with
  | nil => rfl
  | cons m rest ih =>
    simp only [List.cons_append, removeMarkLoop, List.append_eq, ih, List.append_assoc]
    split
    · rfl
    · split
      · rfl
      · simp only [List.append_assoc]

theorem removeMarkLoop_single_split (len frm toc : Int) (style : String) (m : Mark)
    (hsty : m.style = style) (hleft : m.mfrom < frm) (hright : toc < m.mto.getD len) :
    removeMarkLoop len frm toc style [m] =
      [⟨toc, m.mto, m.style⟩, ⟨m.mfrom, some frm, m.style⟩] := by
  have h1 : ¬(style ≠ "" ∧ m.style ≠ style) := by simp [hsty]
  have h2 : ¬(m.mfrom ≥ frm ∧ m.mto.getD len ≤ toc) := by omega
  have h3 : m.mfrom < frm ∧ m.mto.getD len > toc := ⟨hleft, hright⟩
  have h4 : markFromEqToJS ⟨m.mfrom, some frm, m.style⟩ = false := by
    simp [markFromEqToJS]
    omega
  simp only [removeMarkLoop, if_neg h1, if_neg h2, if_pos h3, h4]
  simp

theorem removeMarkLoop_no_empty (len frm toc : Int) (style : String) :
    ∀ (ms : List Mark) (m' : Mark), m' ∈ removeMarkLoop len frm toc style ms →
      (style = "" ∨ m'.style = style) → ∀ t, m'.mto = some t → m'.mfrom ≠ t := by
  intro ms
  induction ms with
  | nil => intro m' hm; simp [removeMarkLoop] at hm
  | cons m rest ih =>
    intro m' hm hsty t ht
    simp only [removeMarkLoop] at hm
    by_cases hskip : style ≠ "" ∧ m.style ≠ style
    · rw [if_pos hskip] at hm
      rcases List.mem_cons.mp hm with he | hrest
      · subst he
        rcases hsty with h | h
        · exact absurd h hskip.1
        · exact absurd h hskip.2
      · exact ih m' hrest hsty t ht
    · rw [if_neg hskip] at hm
      by_cases hdel : m.mfrom ≥ frm ∧ m.mto.getD len ≤ toc
      · rw [if_pos hdel] at hm
        exact ih m' hm hsty t ht
      · rw [if_neg hdel] at hm
        simp only [List.mem_append] at hm
        rcases hm with (hins | hemit) | hrest
        · -- the inserted right part of a split
          by_cases hcase2 : m.mfrom < frm ∧ m.mto.getD len > toc
          · rw [if_pos hcase2] at hins
            simp only [List.mem_singleton] at hins
            subst hins
            simp only at ht
            have hgd : m.mto.getD len = t := by rw [ht]; rfl
            show toc ≠ t
            omega
          · rw [if_neg hcase2] at hins
            simp at hins
        · -- the mark that survived the `from == to` check
          by_cases hchk : markFromEqToJS
              (if m.mfrom < frm ∧ m.mto.getD len > toc then ⟨m.mfrom, some frm, m.style⟩
               else if m.mto.getD len > frm ∧ m.mfrom < frm then ⟨m.mfrom, some frm, m.style⟩
               else if m.mfrom < toc ∧ m.mto.getD len > toc then ⟨toc, m.mto, m.style⟩
               else m) = true
          · rw [if_pos hchk] at hemit
            simp at hemit
          · rw [if_neg hchk] at hemit
            simp only [List.mem_singleton] at hemit
            subst hemit
            simp only [markFromEqToJS, ht, decide_eq_true_eq] at hchk
            exact hchk
        · exact ih m' hrest hsty t ht

/-- C5: `removeMark(from, to, style)` on a line whose mark strictly contains
the removal range replaces that mark by the two marks `[mark.from, from)`
and `[to, mark.to)`, both keeping the original style; the two pieces are
disjoint and together with the removed gap `[from, to)` they reconstruct the
original span; and no adjusted mark with `from = to` survives. -/
theorem C5_removeMark_splits (l : Line) (pre post : List Mark) (m : Mark)
    (frm toc : Int) (style : String)
    (hm : l.marked = some (pre ++ m :: post))
    (hsty : m.style = style)
    (h1 : m.mfrom < frm) (h2 : frm ≤ toc)
    (h3 : toc < m.mto.getD (l.text.length : Int)) :
    (l.removeMark frm (some toc) style).marked =
      some (removeMarkLoop (l.text.length : Int) frm toc style pre ++
        ⟨toc, m.mto, m.style⟩ :: ⟨m.mfrom, some frm, m.style⟩ ::
        removeMarkLoop (l.text.length : Int) frm toc style post) ∧
    (∀ x : Int, ¬((m.mfrom ≤ x ∧ x < frm) ∧
      (toc ≤ x ∧ x < m.mto.getD (l.text.length : Int)))) ∧
    (∀ x : Int, ((m.mfrom ≤ x ∧ x < frm) ∨ (frm ≤ x ∧ x < toc) ∨
        (toc ≤ x ∧ x < m.mto.getD (l.text.length : Int))) ↔
      (m.mfrom ≤ x ∧ x < m.mto.getD (l.text.length : Int))) ∧
    (∀ (ms0 : List Mark) (m' : Mark),
      m' ∈ removeMarkLoop (l.text.length : Int) frm toc style ms0 →
      (style = "" ∨ m'.style = style) → ∀ t, m'.mto = some t → m'.mfrom ≠ t) := by
  refine ⟨?_, ?_, ?_, removeMarkLoop_no_empty _ _ _ _⟩
  · show (match l.marked with
      | none => l
      | some ms =>
        { l with marked := some (removeMarkLoop (l.text.length : Int) frm
            ((some toc).getD (l.text.length : Int)) style ms) }).marked = _
    rw [hm]
    simp only [Option.getD]
    have : pre ++ m :: post = pre ++ [m] ++ post := by simp
    rw [this, removeMarkLoop_append, removeMarkLoop_append,
      removeMarkLoop_single_split (l.text.length : Int) frm toc style m hsty h1 h3]
    simp
  · intro x
    omega
  · intro x
    omega

/-- Witness for C5 on the line `"abcdef"` with the mark `[1, 5)` and the
removal range `[2, 3)`. -/
theorem C5_removeMark_splits_witness :
    (demoLine5.removeMark 2 (some 3) "s").marked =
      some (removeMarkLoop 6 2 3 "s" [] ++
        ⟨3, some 5, "s"⟩ :: ⟨1, some 2, "s"⟩ :: removeMarkLoop 6 2 3 "s" []) ∧
    (∀ x : Int, ¬((1 ≤ x ∧ x < 2) ∧ (3 ≤ x ∧ x < 5))) ∧
    (∀ x : Int, ((1 ≤ x ∧ x < 2) ∨ (2 ≤ x ∧ x < 3) ∨ (3 ≤ x ∧ x < 5)) ↔
      (1 ≤ x ∧ x < 5)) ∧
    (∀ (ms0 : List Mark) (m' : Mark), m' ∈ removeMarkLoop 6 2 3 "s" ms0 →
      ("s" = "" ∨ m'.style = "s") → ∀ t, m'.mto = some t → m'.mfrom ≠ t) :=
  C5_removeMark_splits demoLine5 [] [] ⟨1, some 5, "s"⟩ 2 3 "s" rfl rfl
    (by decide) (by decide) (by decide)

/-! ## C6: mark adjustment in `Line.replace` -/

theorem replAdjustMarks_eq_amended (endL toc diff : Int) :
    ∀ ms : List Mark, replAdjustMarks endL toc diff ms = amendedAdjustMarks endL toc diff ms := by
  intro ms
  induction ms with
  | nil => rfl
  | cons m rest ih =>
    simp only [replAdjustMarks, amendedAdjustMarks, List.filterMap_cons] at ih ⊢
    by_cases h1 : m.mfrom ≥ endL
    · simp [h1, ih]
    · by_cases h2 : markEmptyJS ⟨replFix toc diff m.mfrom, m.mto.map (replFix toc diff), m.style⟩
      · simp [h1, h2, ih]
      · simp [h1, h2, ih]

theorem replAdjustMarks_no_empty (endL toc diff : Int) :
    ∀ (ms : List Mark) (m' : Mark), m' ∈ replAdjustMarks endL toc diff ms →
      ∀ t, m'.mto = some t → m'.mfrom < t := by
  intro ms
  induction ms with
  | nil => intro m' hm; simp [replAdjustMarks] at hm
  | cons m rest ih =>
    intro m' hm t ht
    simp only [replAdjustMarks] at hm
    by_cases h1 : m.mfrom ≥ endL
    · rw [if_pos h1] at hm
      exact ih m' hm t ht
    · rw [if_neg h1] at hm
      by_cases h2 : markEmptyJS ⟨replFix toc diff m.mfrom, m.mto.map (replFix toc diff), m.style⟩
      · rw [if_pos h2] at hm
        exact ih m' hm t ht
      · rw [if_neg h2] at hm
        rcases List.mem_cons.mp hm with he | hrest
        · subst he
          simp only [markEmptyJS] at h2
          simp only at ht
          rw [ht] at h2
          simp at h2
          exact h2
        · exact ih m' hrest t ht

/-- C6 counterexample: inserting `"xx"` at position 2 of `"abcd"` with a
mark `[2, 4)` gives `diff = 2` and `min(to, to+diff) = 2`.  The claim says
the offset `2` (which is AT LEAST the minimum) is shifted to `4`; the source
keeps offsets that are not strictly greater than the minimum, so the mark
becomes `[2, 6)`, not `[4, 6)`. -/
theorem C6_counterexample :
    (demoLineC6.replace 2 2 ("xx".toList)).marked = some [⟨2, some 6, "s"⟩] ∧
    claimAdjustMarks 6 2 2 [⟨2, some 4, "s"⟩] = [⟨4, some 6, "s"⟩] ∧
    (demoLineC6.replace 2 2 ("xx".toList)).marked ≠
      some (claimAdjustMarks 6 2 2 [⟨2, some 4, "s"⟩]) := by
  refine ⟨by decide, by decide, ?_⟩
  decide

/-- C6 (amended): `Line.replace(from, to, text)` with
`diff = text.length - (to - from)` deletes every mark whose `from` is at or
past the post-edit length, shifts every remaining offset STRICTLY GREATER
than `min(to, to+diff)` by `diff`, and deletes every mark that becomes empty
— so no surviving mark has `from ≥ to`. -/
theorem C6_replace_mark_adjustment (l : Line) (frm toc : Nat) (txt : Str) :
    (l.replace frm toc txt).marked =
      l.marked.map (amendedAdjustMarks
        (((l.text.take frm ++ txt ++ l.text.drop toc).length : Int))
        (toc : Int) ((txt.length : Int) - ((toc : Int) - (frm : Int)))) ∧
    (∀ (ms : List Mark) (m' : Mark), (l.replace frm toc txt).marked = some ms →
      m' ∈ ms → ∀ t, m'.mto = some t → m'.mfrom < t) := by
  constructor
  · have hdef : (l.replace frm toc txt).marked =
        l.marked.map (replAdjustMarks
          (((l.text.take frm ++ txt ++ l.text.drop toc).length : Int)) (toc : Int)
          ((txt.length : Int) - ((toc : Int) - (frm : Int)))) := rfl
    rw [hdef]
    cases l.marked with
    | none => rfl
    | some ms =>
      show some (replAdjustMarks _ _ _ ms) = some (amendedAdjustMarks _ _ _ ms)
      rw [replAdjustMarks_eq_amended]
  · intro ms m' hms hmem t ht
    have hdef : (l.replace frm toc txt).marked =
        l.marked.map (replAdjustMarks
          (((l.text.take frm ++ txt ++ l.text.drop toc).length : Int)) (toc : Int)
          ((txt.length : Int) - ((toc : Int) - (frm : Int)))) := rfl
    rw [hdef] at hms
    cases hl : l.marked with
    | none =>
      rw [hl] at hms
      simp at hms
    | some ms0 =>
      rw [hl] at hms
      have hms' : replAdjustMarks
          (((l.text.take frm ++ txt ++ l.text.drop toc).length : Int)) (toc : Int)
          ((txt.length : Int) - ((toc : Int) - (frm : Int))) ms0 = ms := by
        simpa using hms
      rw [← hms'] at hmem
      exact replAdjustMarks_no_empty _ _ _ ms0 m' hmem t ht

/-- C4 counterexample: two `addChange` calls at the same position exactly
400ms apart.  The elapsed time is NOT strictly less than 400ms, yet the
source merges (the push condition is `now - time > 400`), leaving one `done`
record where the claim requires two. -/
theorem C4_counterexample :
    ¬((1400 : Int) - 1000 < 400) ∧
    (History.new.addChange 1000 0 1 [("a".toList)]).done.length = 1 ∧
    ((History.new.addChange 1000 0 1 [("a".toList)]).addChange 1400 0 1
      [("b".toList)]).done.length = 1 := by
  refine ⟨by decide, by decide, by decide⟩

/-- C4 (amended): `addChange` merges into the previous `done` record
(leaving the record count unchanged) precisely when the previous record
exists, AT MOST 400ms elapsed, and the ranges satisfy the source's
proximity test `last.start ≤ start + added` and
`start - last.added + last.old.length ≤ last.start + last.added`; otherwise
it pushes a new record. -/
theorem C4_addChange_coalesce (h : History) (now : Int) (start added : Nat)
    (old : List Str) :
    ((h.addChange now start added old).done.length = h.done.length + 1 ↔
      (h.done.getLast? = none ∨ now - h.time > 400 ∨
        (∃ last, h.done.getLast? = some last ∧
          ((last.start : Int) > (start : Int) + (added : Int) ∨
           (last.start : Int) + (last.added : Int) <
             (start : Int) - (last.added : Int) + (last.old.length : Int))))) ∧
    ((h.addChange now start added old).done.length = h.done.length ↔
      (h.done ≠ [] ∧ now - h.time ≤ 400 ∧
        (∀ last, h.done.getLast? = some last →
          (last.start : Int) ≤ (start : Int) + (added : Int) ∧
          (start : Int) - (last.added : Int) + (last.old.length : Int) ≤
            (last.start : Int) + (last.added : Int)))) := by
  cases hl : h.done.getLast? with
  | none =>
    have hnil : h.done = [] := List.getLast?_eq_none_iff.mp hl
    have hpush : (h.addChange now start added old).done = h.done ++ [⟨start, added, old⟩] := by
      simp [History.addChange, hl]
    constructor
    · rw [hpush]
      simp
    · rw [hpush]
      simp [hnil]
  | some last =>
    have hne : h.done ≠ [] := by
      intro he
      rw [he] at hl
      simp at hl
    have hpos : 0 < h.done.length := List.length_pos.mpr hne
    by_cases hcond : now - h.time > 400 ∨
        (last.start : Int) > (start : Int) + (added : Int) ∨
        ((last.start : Int) + (last.added : Int) <
          (start : Int) - (last.added : Int) + (last.old.length : Int))
    · have hpush : (h.addChange now start added old).done =
          h.done ++ [⟨start, added, old⟩] := by
        simp only [History.addChange, hl]
        rw [if_pos hcond]
      have hlen2 : (h.addChange now start added old).done.length = h.done.length + 1 := by
        rw [hpush]
        simp
      constructor
      · rw [hlen2]
        constructor
        · intro _
          rcases hcond with hc | hc | hc
          · exact Or.inr (Or.inl hc)
          · exact Or.inr (Or.inr ⟨last, rfl, Or.inl hc⟩)
          · exact Or.inr (Or.inr ⟨last, rfl, Or.inr hc⟩)
        · intro _
          rfl
      · rw [hlen2]
        constructor
        · intro habs
          omega
        · rintro ⟨_, h400, hall⟩
          exfalso
          obtain ⟨ha, hb⟩ := hall last rfl
          rcases hcond with hc | hc | hc <;> omega
    · have hmerge : ∃ x, (h.addChange now start added old).done = h.done.dropLast ++ [x] := by
        simp only [History.addChange, hl]
        rw [if_neg hcond]
        exact ⟨_, rfl⟩
      obtain ⟨x, hmerge⟩ := hmerge
      have hlen : (h.addChange now start added old).done.length = h.done.length := by
        rw [hmerge]
        simp only [List.length_append, List.length_dropLast, List.length_cons,
          List.length_nil]
        omega
      push_neg at hcond
      obtain ⟨h400, hA, hB⟩ := hcond
      constructor
      · rw [hlen]
        constructor
        · intro habs
          omega
        · rintro (hnone | h400' | ⟨last', hl', hdisj⟩)
          · simp at hnone
          · omega
          · have : last' = last := (Option.some.inj hl').symm
            subst this
            rcases hdisj with hd | hd
            · omega
            · omega
      · rw [hlen]
        constructor
        · intro _
          refine ⟨hne, h400, fun last' hl' => ?_⟩
          have : last' = last := (Option.some.inj hl').symm
          subst this
          exact ⟨by omega, by omega⟩
        · intro _
          rfl

/-- Witness for C4 (amended): the first edit on a fresh history always
starts a new record. -/
theorem C4_addChange_coalesce_witness :
    (History.new.addChange 1000 0 1 [("a".toList)]).done.length =
      History.new.done.length + 1 :=
  (C4_addChange_coalesce History.new 1000 0 1 [("a".toList)]).1.mpr (Or.inl rfl)

/-- Witness for C6 (amended) at the counterexample input. -/
theorem C6_replace_mark_adjustment_witness :
    (demoLineC6.replace 2 2 ("xx".toList)).marked =
      demoLineC6.marked.map (amendedAdjustMarks 6 2 2) ∧ (2 : Int) < 6 :=
  ⟨(C6_replace_mark_adjustment demoLineC6 2 2 ("xx".toList)).1,
   (C6_replace_mark_adjustment demoLineC6 2 2 ("xx".toList)).2 [⟨2, some 6, "s"⟩]
     ⟨2, some 6, "s"⟩ (by decide) (by decide) 6 rfl⟩

/-! ## Generic list helpers -/

theorem take_set_of_le {α : Type} (l : List α) (n m : Nat) (a : α) (h : m ≤ n) :
    (l.set n a).take m = l.take m := by
  ext1 i
  simp only [List.getElem?_take, List.getElem?_set]
  split
  · rw [if_neg (by omega)]
  · rfl

theorem take_succ_set {α : Type} (l : List α) (n : Nat) (a : α) (h : n < l.length) :
    (l.set n a).take (n + 1) = l.take n ++ [a] := by
  rw [List.set_eq_take_cons_drop a h, List.take_append_eq_append_take]
  have h1 : (l.take n).length = n := List.length_take_of_le (Nat.le_of_lt h)
  rw [List.take_of_length_le (by omega), h1]
  simp

theorem drop_set_self {α : Type} (l : List α) (n : Nat) (a : α) (h : n < l.length) :
    (l.set n a).drop n = a :: l.drop (n + 1) := by
  rw [List.set_eq_take_cons_drop a h, List.drop_append_eq_append_drop]
  have h1 : (l.take n).length = n := List.length_take_of_le (Nat.le_of_lt h)
  rw [List.drop_of_length_le (by omega), h1]
  simp

theorem drop_set_of_lt' {α : Type} (l : List α) (n m : Nat) (a : α) (h : n < m) :
    (l.set n a).drop m = l.drop m :=
  List.drop_set_of_lt a l h

/-! ## Document-level helper lemmas -/

theorem jsIndex_natCast {α : Type} (ls : List α) (n : Nat) :
    jsIndex ls (n : Int) = ls.get? n := by
  simp [jsIndex]

theorem chClip_natCast (ch : Nat) (l : Line) (h : ch ≤ l.text.length) :
    chClip (ch : Int) l = some ch := by
  unfold chClip
  rw [if_pos ⟨Int.natCast_nonneg ch, by exact_mod_cast h⟩]
  simp

theorem spliceList_eq {α : Type} (l : List α) (s : Nat) (d : Int) (items : List α)
    (hs : s ≤ l.length) (hd2 : d.toNat ≤ l.length - s) :
    spliceList l s d items = l.take s ++ items ++ l.drop (s + d.toNat) := by
  unfold spliceList
  simp only [min_eq_left hs, min_eq_left hd2]

theorem map_spliceList {α β : Type} (f : α → β) (l : List α) (s : Nat) (d : Int)
    (items : List α) :
    (spliceList l s d items).map f = spliceList (l.map f) s d (items.map f) := by
  unfold spliceList
  simp [List.map_take, List.map_drop]

theorem posLess_self (p : Pos) : posLess p p = false := by
  simp [posLess]

theorem setSelection_frame (st : EditorState) (f t : Pos) :
    (setSelection st f t).lines = st.lines ∧
    (setSelection st f t).history = st.history ∧
    (setSelection st f t).shiftSelecting = st.shiftSelecting ∧
    (setSelection st f t).undoDepth = st.undoDepth := by
  unfold setSelection
  split
  · exact ⟨rfl, rfl, rfl, rfl⟩
  · exact ⟨rfl, rfl, rfl, rfl⟩

theorem setSelection_collapsed (st : EditorState) (p : Pos)
    (hsh : st.shiftSelecting = none) :
    (setSelection st p p).selection.sfrom = p ∧ (setSelection st p p).selection.sto = p := by
  unfold setSelection
  split
  · next h => exact ⟨h.1, h.2⟩
  · simp [hsh, posLess_self]

theorem map_text_ofText (l : List Str) :
    l.map ((fun x => x.text) ∘ Line.ofText) = l := by
  have h : ((fun (x : Line) => x.text) ∘ Line.ofText) = (id : Str → Str) :=
    funext (fun t => rfl)
  rw [h, List.map_id]

theorem gatherTextsAux_eq (ls : List Line) :
    ∀ (c a : Nat), a + c ≤ ls.length →
      gatherTextsAux ls c ((a : Nat) : Int) =
        some (((ls.map (·.text)).drop a).take c) := by
  intro c
  induction c with
  | zero => intro a ha; simp [gatherTextsAux]
  | succ c ih =>
    intro a ha
    have halt : a < ls.length := by omega
    have hj : jsIndex ls ((a : Nat) : Int) = some (ls.get ⟨a, halt⟩) := by
      rw [jsIndex_natCast, List.get?_eq_get halt]
    have hstep : ((a : Nat) : Int) + 1 = ((a + 1 : Nat) : Int) := by push_cast; ring
    simp only [gatherTextsAux, hj, hstep, ih (a + 1) (by omega)]
    have hdrop : (ls.map (·.text)).drop a =
        (ls.get ⟨a, halt⟩).text :: (ls.map (·.text)).drop (a + 1) := by
      rw [List.drop_eq_getElem_cons (by simpa using halt)]
      simp [List.getElem_map]
    rw [hdrop]
    simp [List.take_succ_cons]

theorem gatherTexts_eq (ls : List Line) (a b : Nat) (hab : a ≤ b)
    (hb : b < ls.length) :
    gatherTexts ls ((a : Nat) : Int) ((b : Nat) : Int) =
      some (((ls.map (·.text)).drop a).take (b + 1 - a)) := by
  unfold gatherTexts
  have hcnt : (((b : Nat) : Int) + 1 - ((a : Nat) : Int)).toNat = b + 1 - a := by
    omega
  rw [hcnt]
  exact gatherTextsAux_eq ls (b + 1 - a) a (by omega)



/-- The effect of `updateLines` on the line texts, for an in-order,
in-bounds edit range and a nonempty replacement: the lines `fl..tl` are
replaced by the spliced new lines, the first/last of which keep the
unaffected prefix `lF.text.take fch` / suffix `lL.text.drop tch`. -/
theorem updateLines_eq (st : EditorState) (fl tl fch tch : Nat) (newText : List Str)
    (selF selT : Pos) (lF lL : Line)
    (hF : st.lines.get? fl = some lF) (hL : st.lines.get? tl = some lL)
    (hflt : fl ≤ tl) (htl : tl < st.lines.length)
    (hfch : fch ≤ lF.text.length) (htch : tch ≤ lL.text.length)
    (hnt : newText ≠ []) :
    ∃ L1 : List Line,
      updateLines st ⟨(fl : Int), (fch : Int)⟩ ⟨(tl : Int), (tch : Int)⟩ newText selF selT =
        some (setSelection { st with lines := L1 } selF selT) ∧
      L1.map (·.text) =
        (st.lines.map (·.text)).take fl ++
          (if newText.length = 1 then
            [lF.text.take fch ++ newText.headD [] ++ lL.text.drop tch]
           else
            (lF.text.take fch ++ newText.headD []) ::
              ((newText.drop 1).dropLast ++ [newText.getLastD [] ++ lL.text.drop tch])) ++
          (st.lines.map (·.text)).drop (tl + 1) := by
  have hfl : fl < st.lines.length := Nat.lt_of_le_of_lt hflt htl
  have hjF : jsIndex st.lines ((fl : Nat) : Int) = some lF := by
    rw [jsIndex_natCast]
    exact hF
  have hjL : jsIndex st.lines ((tl : Nat) : Int) = some lL := by
    rw [jsIndex_natCast]
    exact hL
  have hcF : chClip ((fch : Nat) : Int) lF = some fch := chClip_natCast _ _ hfch
  have hcL : chClip ((tch : Nat) : Int) lL = some tch := chClip_natCast _ _ htch
  have hmapl : (st.lines.map (·.text)).length = st.lines.length := List.length_map _ _
  by_cases heq : fl = tl
  · subst heq
    have hLF : lL = lF := by
      rw [hF] at hL
      exact (Option.some.inj hL).symm
    subst hLF
    by_cases hone : newText.length = 1
    · refine ⟨st.lines.set fl (lL.replace fch tch (newText.headD [])), ?_, ?_⟩
      · simp only [updateLines, hjF, hcF, hcL, if_neg hnt, Int.toNat_natCast]
        simp only [eq_self_iff_true, if_true, if_pos hone]
      · rw [List.map_set, if_pos hone,
          List.set_eq_take_cons_drop _ (by rw [hmapl]; exact hfl)]
        simp [Line.replace_text_def]
    · refine ⟨spliceList
          (st.lines.set fl (lL.replace fch lL.text.length (newText.headD [])))
          (fl + 1) (((fl : Nat) : Int) - ((fl : Nat) : Int))
          ((((newText.drop 1).dropLast).map Line.ofText) ++
            [lL.split tch (newText.getLastD [])]), ?_, ?_⟩
      · simp only [updateLines, hjF, hcF, hcL, if_neg hnt, Int.toNat_natCast]
        simp only [eq_self_iff_true, if_true, if_neg hone]
      · rw [map_spliceList, List.map_set]
        have hsub : (((fl : Nat) : Int) - ((fl : Nat) : Int)).toNat = 0 := by
          simp
        rw [spliceList_eq _ _ _ _ (by rw [List.length_set, hmapl]; omega)
            (by rw [List.length_set]; omega)]
        rw [hsub, take_succ_set _ _ _ (by rw [hmapl]; exact hfl),
          drop_set_of_lt' _ _ _ _ (by omega), if_neg hone]
        simp only [Line.replace_text_def, List.drop_length, List.append_nil,
          List.map_append, List.map_map, Nat.add_zero]
        simp [Line.split, Line.mkStyled, map_text_ofText]
  · have hlt : fl < tl := Nat.lt_of_le_of_ne hflt heq
    have hne2 : ¬(((fl : Nat) : Int) = ((tl : Nat) : Int)) := by
      simp only [Int.natCast_inj]
      exact heq
    by_cases hone : newText.length = 1
    · refine ⟨spliceList
          (st.lines.set fl (lF.replace fch lF.text.length
            ((newText.headD []) ++ lL.text.drop tch)))
          (fl + 1) (((tl : Nat) : Int) - ((fl : Nat) : Int)) [], ?_, ?_⟩
      · simp only [updateLines, hjF, hjL, hcF, hcL, if_neg hnt, Int.toNat_natCast]
        simp only [if_neg hne2, if_pos hone]
      · rw [map_spliceList, List.map_set]
        have hsub : (((tl : Nat) : Int) - ((fl : Nat) : Int)).toNat = tl - fl := by
          omega
        rw [spliceList_eq _ _ _ _ (by rw [List.length_set, hmapl]; omega)
            (by rw [List.length_set, hmapl]; omega)]
        rw [hsub, take_succ_set _ _ _ (by rw [hmapl]; exact hfl),
          drop_set_of_lt' _ _ _ _ (by omega), if_pos hone]
        have hix : fl + 1 + (tl - fl) = tl + 1 := by omega
        rw [hix]
        simp [Line.replace_text_def]
    · refine ⟨spliceList
          ((st.lines.set fl (lF.replace fch lF.text.length (newText.headD []))).set tl
            (lL.replace 0 tch (newText.getLastD [])))
          (fl + 1) (((tl : Nat) : Int) - ((fl : Nat) : Int) - 1)
          (((newText.drop 1).dropLast).map Line.ofText), ?_, ?_⟩
      · simp only [updateLines, hjF, hjL, hcF, hcL, if_neg hnt, Int.toNat_natCast]
        simp only [if_neg hne2, if_neg hone]
      · rw [map_spliceList, List.map_set, List.map_set]
        have hsub : (((tl : Nat) : Int) - ((fl : Nat) : Int) - 1).toNat = tl - fl - 1 := by
          omega
        rw [spliceList_eq _ _ _ _
            (by rw [List.length_set, List.length_set, hmapl]; omega)
            (by rw [List.length_set, List.length_set, hmapl]; omega)]
        rw [hsub]
        rw [take_set_of_le _ _ _ _ (by omega),
          take_succ_set _ _ _ (by rw [hmapl]; exact hfl)]
        have hix : fl + 1 + (tl - fl - 1) = tl := by omega
        rw [hix]
        rw [drop_set_self _ _ _ (by rw [List.length_set, hmapl]; exact htl),
          drop_set_of_lt' _ _ _ _ (by omega), if_neg hone]
        simp only [Line.replace_text_def, List.drop_length, List.append_nil,
          List.map_map]
        simp [Line.split, Line.mkStyled, map_text_ofText]

theorem cons_middle_last {α : Type} (l : List α) (d : α) (h : 2 ≤ l.length) :
    l.headD d :: ((l.drop 1).dropLast ++ [l.getLastD d]) = l := by
  cases l with
  | nil => simp at h
  | cons a rest =>
    cases hr : rest with
    | nil => rw [hr] at h; simp at h
    | cons b rs =>
      subst hr
      have hne : (b :: rs) ≠ [] := by simp
      simp only [List.headD_cons, List.drop_one, List.tail_cons]
      have hgl : (a :: b :: rs).getLastD d = (b :: rs).getLast hne := by
        rw [List.getLastD_eq_getLast?]
        rw [List.getLast?_cons_cons]
        rw [List.getLast?_eq_getLast _ hne]
        rfl
      rw [hgl, List.dropLast_append_getLast hne]

/-- C1: `getValue` after `setValue(s)` yields `s` with every `"\r\n"`
normalized to `"\n"` — `setValue` splits `s` on `/\r?\n/g` and replaces the
entire document with those lines; `getValue` joins the line texts with
`"\n"`.  The buffer must be nonempty (as the editor invariant guarantees;
`setValue` reads the last line's length). -/
theorem C1_setValue_getValue (st : EditorState) (s : Str) (h : st.lines ≠ []) :
    ∃ st1, setValue st s = some st1 ∧ getValue st1 = normalizeCRLF s := by
  have hpos : 0 < st.lines.length := List.length_pos.mpr h
  obtain ⟨l0, hl0⟩ : ∃ l0, st.lines.get? 0 = some l0 := by
    cases hc : st.lines.get? 0 with
    | none => rw [List.get?_eq_none] at hc; omega
    | some x => exact ⟨x, rfl⟩
  obtain ⟨lL, hlL⟩ : ∃ lL, st.lines.get? (st.lines.length - 1) = some lL := by
    cases hc : st.lines.get? (st.lines.length - 1) with
    | none => rw [List.get?_eq_none] at hc; omega
    | some x => exact ⟨x, rfl⟩
  have hnt : jsSplitLines s ≠ [] := jsSplitLines_ne_nil s
  obtain ⟨L1, hupd, htexts⟩ := updateLines_eq { st with history := none } 0
    (st.lines.length - 1) 0
    (lL.text.length) (jsSplitLines s) ⟨0, 0⟩ ⟨0, 0⟩ l0 lL hl0 hlL
    (Nat.zero_le _) (by show st.lines.length - 1 < st.lines.length; omega)
    (Nat.zero_le _) (le_refl _) hnt
  have hcast0 : (((0 : Nat)) : Int) = (0 : Int) := by norm_num
  have hcastL : (st.lines.length : Int) - 1 = (((st.lines.length - 1 : Nat)) : Int) := by
    omega
  have hjlast : jsIndex st.lines ((st.lines.length : Int) - 1) = some lL := by
    rw [hcastL, jsIndex_natCast]
    exact hlL
  refine ⟨{ (setSelection { { st with history := none } with lines := L1 } ⟨0, 0⟩ ⟨0, 0⟩) with
    history := some History.new }, ?_, ?_⟩
  · have hrl : replaceLines { st with history := none } 0 ⟨0, 0⟩
        ⟨(st.lines.length : Int) - 1, (lL.text.length : Int)⟩ s ⟨0, 0⟩ ⟨0, 0⟩ =
        some (setSelection { { st with history := none } with lines := L1 } ⟨0, 0⟩ ⟨0, 0⟩) := by
      simp only [replaceLines, hcastL]
      exact hupd
    simp only [setValue]
    simp only [hjlast]
    simp only [hrl]
  · have hL1 : (setSelection { { st with history := none } with lines := L1 }
        ⟨0, 0⟩ ⟨0, 0⟩).lines = L1 :=
      (setSelection_frame _ _ _).1
    unfold getValue
    simp only [hL1]
    have hT : (st.lines.map (·.text)).length = st.lines.length := List.length_map _ _
    have hdropAll : ((st.lines.map (·.text))).drop (st.lines.length - 1 + 1) = [] := by
      apply List.drop_eq_nil_of_le
      omega
    rw [htexts]
    rw [show ({ st with history := none } : EditorState).lines = st.lines from rfl, hdropAll]
    have htake0 : ((st.lines.map (·.text))).take 0 = [] := rfl
    rw [htake0]
    simp only [List.nil_append, List.append_nil, List.take_nil]
    by_cases hone : (jsSplitLines s).length = 1
    · rw [if_pos hone]
      obtain ⟨x, hx⟩ := List.length_eq_one.mp hone
      rw [hx]
      simp only [List.headD_cons, List.take_zero, List.drop_length,
        List.nil_append, List.append_nil]
      rw [← hx, joinNL_jsSplitLines]
    · rw [if_neg hone]
      have h2 : 2 ≤ (jsSplitLines s).length := by
        cases hc : (jsSplitLines s).length with
        | zero => rw [List.length_eq_zero] at hc; exact absurd hc hnt
        | succ n => cases n with
          | zero => exact absurd hc hone
          | succ m => omega
      simp only [List.take_zero, List.drop_length, List.nil_append, List.append_nil]
      rw [cons_middle_last _ _ h2, joinNL_jsSplitLines]

/-- Witness for C1 on a freshly constructed editor. -/
theorem C1_setValue_getValue_witness :
    ∃ st1, setValue demoState ("a\r\nb".toList) = some st1 ∧
      getValue st1 = normalizeCRLF ("a\r\nb".toList) :=
  C1_setValue_getValue demoState ("a\r\nb".toList) (by decide)

/-! ## C9: clipping and total `replaceRange` -/

theorem jsIndex_of_nonneg {α : Type} (ls : List α) (i : Int) (h : 0 ≤ i) :
    jsIndex ls i = ls.get? i.toNat := by
  simp [jsIndex, not_lt.mpr h]

theorem jsIndex_isSome_of_bounds (ls : List Line) (i : Int) (h0 : 0 ≤ i)
    (h1 : i < (ls.length : Int)) : ∃ l, jsIndex ls i = some l := by
  rw [jsIndex_of_nonneg ls i h0]
  cases hc : ls.get? i.toNat with
  | none =>
    rw [List.get?_eq_none] at hc
    omega
  | some x => exact ⟨x, rfl⟩

theorem gatherTextsAux_isSome (ls : List Line) :
    ∀ (c : Nat) (i : Int),
      (∀ k : Nat, k < c → ∃ l, jsIndex ls (i + k) = some l) →
      ∃ r, gatherTextsAux ls c i = some r := by
  intro c
  induction c with
  | zero => intro i _; exact ⟨[], rfl⟩
  | succ c ih =>
    intro i hk
    obtain ⟨l, hl⟩ := hk 0 (Nat.succ_pos c)
    rw [show i + ((0 : Nat) : Int) = i by omega] at hl
    obtain ⟨r, hr⟩ := ih (i + 1) (by
      intro k hklt
      obtain ⟨l2, hl2⟩ := hk (k + 1) (by omega)
      refine ⟨l2, ?_⟩
      rw [show i + 1 + (k : Int) = i + ((k + 1 : Nat) : Int) by push_cast; ring]
      exact hl2)
    exact ⟨l.text :: r, by simp [gatherTextsAux, hl, hr]⟩

theorem gatherTexts_isSome (ls : List Line) (a b : Int) (ha : 0 ≤ a)
    (hb : b < (ls.length : Int)) : ∃ r, gatherTexts ls a b = some r := by
  unfold gatherTexts
  apply gatherTextsAux_isSome
  intro k hk
  apply jsIndex_isSome_of_bounds
  · omega
  · have : (k : Int) < b + 1 - a := by omega
    omega

theorem updateLines_isSome (st : EditorState) (frm toP : Pos) (newText : List Str)
    (selF selT : Pos) (lF lL : Line)
    (hjF : jsIndex st.lines frm.line = some lF)
    (hjL : jsIndex st.lines toP.line = some lL)
    (hcF : 0 ≤ frm.ch ∧ frm.ch ≤ (lF.text.length : Int))
    (hcL : 0 ≤ toP.ch ∧ toP.ch ≤ (lL.text.length : Int))
    (hnt : newText ≠ []) :
    ∃ st1, updateLines st frm toP newText selF selT = some st1 := by
  simp only [updateLines, hjF, hjL, chClip, if_pos hcF, if_pos hcL, if_neg hnt]
  exact ⟨_, rfl⟩

theorem clipPosition_some (st : EditorState) (p : Pos) (h : st.lines ≠ []) :
    ∃ q lq, clipPosition st p = some q ∧ st.lines.get? q.line.toNat = some lq ∧
      0 ≤ q.line ∧ q.line ≤ (st.lines.length : Int) - 1 ∧
      0 ≤ q.ch ∧ q.ch ≤ (lq.text.length : Int) := by
  have hpos : 0 < st.lines.length := List.length_pos.mpr h
  have h0 : (0 : Int) ≤ max 0 (min ((st.lines.length : Int) - 1) p.line) := le_max_left _ _
  have h1 : max 0 (min ((st.lines.length : Int) - 1) p.line) ≤ (st.lines.length : Int) - 1 := by
    omega
  obtain ⟨lq, hlq⟩ := jsIndex_isSome_of_bounds st.lines
    (max 0 (min ((st.lines.length : Int) - 1) p.line)) h0 (by omega)
  refine ⟨⟨max 0 (min ((st.lines.length : Int) - 1) p.line),
    max 0 (min ((lq.text.length : Int)) p.ch)⟩, lq, ?_, ?_, h0, h1, le_max_left _ _,
    by dsimp only; omega⟩
  · simp only [clipPosition]
    simp only [hlq]
  · rw [← jsIndex_of_nonneg st.lines _ h0]
    exact hlq

/-- C9: `clipPosition` clamps any (possibly negative or past-the-end)
position into `0 ≤ line ≤ lineCount-1`, `0 ≤ ch ≤ length of that line's
text`, and `replaceRange` clips its argument positions and then always
succeeds (never throws) on a nonempty buffer, for arbitrary input
positions. -/
theorem C9_clip_and_replaceRange_total (st : EditorState) (p p1 p2 : Pos)
    (now : Int) (code : Str) (h : st.lines ≠ []) :
    (∃ q lq, clipPosition st p = some q ∧ st.lines.get? q.line.toNat = some lq ∧
      0 ≤ q.line ∧ q.line ≤ (st.lines.length : Int) - 1 ∧
      0 ≤ q.ch ∧ q.ch ≤ (lq.text.length : Int)) ∧
    (∃ res, replaceRange st now code p1 p2 = some res) := by
  refine ⟨clipPosition_some st p h, ?_⟩
  obtain ⟨q1, lq1, hc1, hg1, hq1a, hq1b, hq1c, hq1d⟩ := clipPosition_some st p1 h
  obtain ⟨q2, lq2, hc2, hg2, hq2a, hq2b, hq2c, hq2d⟩ := clipPosition_some st p2 h
  have hj1 : jsIndex st.lines q1.line = some lq1 := by
    rw [jsIndex_of_nonneg _ _ hq1a]
    exact hg1
  have hj2 : jsIndex st.lines q2.line = some lq2 := by
    rw [jsIndex_of_nonneg _ _ hq2a]
    exact hg2
  have hnt : jsSplitLines code ≠ [] := jsSplitLines_ne_nil code
  have hrl : ∃ st1, replaceLines st now q1 q2 code
      (adjustPos q1 q2 (replEndPos code q1 q2) st.selection.sfrom)
      (adjustPos q1 q2 (replEndPos code q1 q2) st.selection.sto) = some st1 := by
    unfold replaceLines
    cases hh : st.history with
    | none =>
      exact updateLines_isSome st q1 q2 (jsSplitLines code) _ _ lq1 lq2 hj1 hj2
        ⟨hq1c, hq1d⟩ ⟨hq2c, hq2d⟩ hnt
    | some hst =>
      obtain ⟨old, hold⟩ := gatherTexts_isSome st.lines q1.line q2.line hq1a (by omega)
      rw [hold]
      exact updateLines_isSome _ q1 q2 (jsSplitLines code) _ _ lq1 lq2 hj1 hj2
        ⟨hq1c, hq1d⟩ ⟨hq2c, hq2d⟩ hnt
  obtain ⟨st1, hst1⟩ := hrl
  refine ⟨(st1, replEndPos code q1 q2), ?_⟩
  unfold replaceRange
  rw [hc1, hc2]
  simp only [hst1]

/-! ## C3: undo after a single edit -/

/-- C3 counterexample: on the one-line document `"abc"` with a collapsed
selection at `{0,0}` and a fresh history, append `"X"` at `{0,3}` (moving
the selection to `{0,4}` as typing does), then `undo()`.  The line texts are
restored exactly, but the selection is NOT the prior `{0,0}`–`{0,0}`: undo
places a collapsed cursor at the longest-common-suffix boundary `{0,3}`. -/
theorem C3_counterexample :
    ((replaceLines demoStateAbc 1000 ⟨0, 3⟩ ⟨0, 3⟩ ("X".toList) ⟨0, 4⟩ ⟨0, 4⟩).bind
        undo).map (fun st2 => (st2.lines.map (fun l => l.text), st2.selection)) =
      some ([("abc".toList)], ⟨⟨0, 3⟩, ⟨0, 3⟩, false⟩) ∧
    (⟨⟨0, 3⟩, ⟨0, 3⟩, false⟩ : Selection) ≠ demoStateAbc.selection := by
  refine ⟨by decide, by decide⟩

theorem getLast?_drop_take {α : Type} (l : List α) (a c : Nat) (hc : 1 ≤ c)
    (h : a + c ≤ l.length) :
    ((l.drop a).take c).getLast? = l.get? (a + c - 1) := by
  have hlen : ((l.drop a).take c).length = c := by
    simp only [List.length_take, List.length_drop]
    omega
  rw [List.getLast?_eq_getElem?, hlen, List.getElem?_take, if_pos (by omega),
    List.getElem?_drop, List.get?_eq_getElem?]
  congr 1
  omega

/-- `replaceLines` on a state whose history is enabled and empty: the edit
is recorded as the single `done` record `{start := fl, added := |newText|,
old := the replaced line texts}`, the `shiftSelecting` anchor is untouched,
and the lines are updated as by `updateLines`. -/
theorem replaceLines_fresh (st : EditorState) (h0 : History) (now : Int)
    (fl tl fch tch : Nat) (code : Str) (selF selT : Pos) (lF lL : Line)
    (hh : st.history = some h0) (hdone : h0.done = [])
    (hdepth : 1 ≤ st.undoDepth)
    (hF : st.lines.get? fl = some lF) (hL : st.lines.get? tl = some lL)
    (hflt : fl ≤ tl) (htl : tl < st.lines.length)
    (hfch : fch ≤ lF.text.length) (htch : tch ≤ lL.text.length) :
    ∃ (st1 : EditorState) (L1 : List Line),
      replaceLines st now ⟨(fl : Int), (fch : Int)⟩ ⟨(tl : Int), (tch : Int)⟩ code
          selF selT = some st1 ∧
      st1.lines = L1 ∧
      st1.history = some ⟨now, [⟨fl, (jsSplitLines code).length,
        ((st.lines.map (·.text)).drop fl).take (tl + 1 - fl)⟩], []⟩ ∧
      st1.shiftSelecting = st.shiftSelecting ∧
      L1.map (·.text) =
        (st.lines.map (·.text)).take fl ++
          (if (jsSplitLines code).length = 1 then
            [lF.text.take fch ++ (jsSplitLines code).headD [] ++ lL.text.drop tch]
           else
            (lF.text.take fch ++ (jsSplitLines code).headD []) ::
              (((jsSplitLines code).drop 1).dropLast ++
                [(jsSplitLines code).getLastD [] ++ lL.text.drop tch])) ++
          (st.lines.map (·.text)).drop (tl + 1) := by
  have hnt := jsSplitLines_ne_nil code
  have hold := gatherTexts_eq st.lines fl tl hflt htl
  have haddc : h0.addChange now fl (jsSplitLines code).length
      (((st.lines.map (·.text)).drop fl).take (tl + 1 - fl)) =
      ⟨now, [⟨fl, (jsSplitLines code).length,
        ((st.lines.map (·.text)).drop fl).take (tl + 1 - fl)⟩], []⟩ := by
    simp [History.addChange, hdone]
  obtain ⟨L1, hupd, htexts⟩ := updateLines_eq
    { st with history := some ⟨now, [⟨fl, (jsSplitLines code).length,
        ((st.lines.map (·.text)).drop fl).take (tl + 1 - fl)⟩], []⟩ }
    fl tl fch tch (jsSplitLines code) selF selT lF lL hF hL hflt htl hfch htch hnt
  have hdrop0 : (1 : Nat) - st.undoDepth = 0 := by omega
  refine ⟨setSelection
      { { st with history := some ⟨now, [⟨fl, (jsSplitLines code).length,
          ((st.lines.map (fun l : Line => l.text)).drop fl).take (tl + 1 - fl)⟩],
          []⟩ } with lines := L1 } selF selT, L1, ?_, (setSelection_frame _ _ _).1,
    (setSelection_frame _ _ _).2.1, (setSelection_frame _ _ _).2.2.1, htexts⟩
  simp only [replaceLines, hh]
  simp only [hold]
  simp only [Int.toNat_natCast, haddc]
  simp only [List.length_singleton, hdrop0, List.drop_zero]
  exact hupd

/-- The text fragments `updateLines` splices in during the undo write-back
reassemble exactly the record's `old` lines: the first line keeps no prefix
(`fch = 0`) and the last line keeps no suffix (`tch` is its full length). -/
theorem replacement_core_eq (old : List Str) (a b : Str) (h : 1 ≤ old.length) :
    (if old.length = 1 then [a.take 0 ++ old.headD [] ++ b.drop b.length]
     else (a.take 0 ++ old.headD []) ::
       ((old.drop 1).dropLast ++ [old.getLastD [] ++ b.drop b.length])) = old := by
  simp only [List.take_zero, List.nil_append, List.drop_length, List.append_nil]
  by_cases hone : old.length = 1
  · rw [if_pos hone]
    obtain ⟨x, hx⟩ := List.length_eq_one.mp hone
    subst hx
    rfl
  · rw [if_neg hone]
    exact cons_middle_last old [] (by omega)

/-- Effect of `undo()` on a state whose history holds exactly one `done`
record `{start := fl, added := N, old}` covering in-bounds lines: the
record's `old` texts are written back over lines `[fl, fl + N)` and the
selection collapses to the `editEnd` column on the last restored line. -/
theorem undo_single_record (st1 : EditorState) (t : Int) (fl N : Nat)
    (old : List Str) (rF r : Line)
    (hh1 : st1.history = some ⟨t, [⟨fl, N, old⟩], []⟩)
    (hsh1 : st1.shiftSelecting = none)
    (hN : 1 ≤ N) (hold : 1 ≤ old.length)
    (hrF : st1.lines.get? fl = some rF)
    (hr : st1.lines.get? (fl + N - 1) = some r)
    (hlen : fl + N ≤ st1.lines.length) :
    ∃ st2 : EditorState, undo st1 = some st2 ∧
      st2.lines.map (·.text) =
        (st1.lines.map (·.text)).take fl ++ old ++
          (st1.lines.map (·.text)).drop (fl + N) ∧
      st2.selection.sfrom =
        ⟨(fl : Int) + (old.length : Int) - 1,
          ((editEnd r.text (old.getLastD []) : Nat) : Int)⟩ ∧
      st2.selection.sto = st2.selection.sfrom := by
  obtain ⟨olast, holast⟩ : ∃ x, old.getLast? = some x := by
    cases hc : old.getLast? with
    | none =>
      rw [List.getLast?_eq_none_iff] at hc
      rw [hc] at hold
      simp only [List.length_nil] at hold
      omega
    | some x => exact ⟨x, rfl⟩
  have holastD : old.getLastD [] = olast := by
    rw [List.getLastD_eq_getLast?, holast]
    rfl
  have hold_ne : old ≠ [] := by
    intro hc
    rw [hc] at hold
    simp only [List.length_nil] at hold
    omega
  have hcastE : (fl : Int) + (N : Int) - 1 = ((fl + N - 1 : Nat) : Int) := by omega
  have hrepl : gatherTexts st1.lines ((fl : Nat) : Int) ((fl : Int) + (N : Int) - 1) =
      some (((st1.lines.map (·.text)).drop fl).take N) := by
    rw [hcastE, gatherTexts_eq st1.lines fl (fl + N - 1) (by omega) (by omega)]
    rw [show fl + N - 1 + 1 - fl = N by omega]
  have hreplLast : ((((st1.lines.map (·.text)).drop fl).take N)).getLast? =
      some r.text := by
    rw [getLast?_drop_take _ fl N hN (by rw [List.length_map]; omega)]
    rw [List.get?_map, hr]
    rfl
  have hjr : jsIndex st1.lines ((fl : Int) + (N : Int) - 1) = some r := by
    rw [hcastE, jsIndex_natCast]
    exact hr
  have hgl : (([⟨fl, N, old⟩] : List Change)).getLast? = some ⟨fl, N, old⟩ := rfl
  have hdl : (([⟨fl, N, old⟩] : List Change)).dropLast = [] := rfl
  obtain ⟨L2, hupd2, htexts2⟩ := updateLines_eq
    { st1 with history := some ⟨t, [], []⟩ } fl (fl + N - 1) 0 r.text.length old
    ⟨(fl : Int) + (old.length : Int) - 1, ((editEnd r.text olast : Nat) : Int)⟩
    ⟨(fl : Int) + (old.length : Int) - 1, ((editEnd r.text olast : Nat) : Int)⟩
    rF r hrF hr (by omega) (by show fl + N - 1 < st1.lines.length; omega)
    (Nat.zero_le _) (le_refl _) hold_ne
  have hrec : ({ st1 with history := some ⟨t, [], []⟩ } : EditorState).lines =
      st1.lines := rfl
  rw [← hcastE] at hupd2
  simp only [Nat.cast_zero] at hupd2
  rw [hrec] at htexts2
  have hshREC : ({ { st1 with history := some ⟨t, [], []⟩ } with lines := L2 } :
      EditorState).shiftSelecting = none := hsh1
  refine ⟨setSelection
      { { st1 with history := some ⟨t, [], []⟩ } with lines := L2 }
      ⟨(fl : Int) + (old.length : Int) - 1, ((editEnd r.text olast : Nat) : Int)⟩
      ⟨(fl : Int) + (old.length : Int) - 1, ((editEnd r.text olast : Nat) : Int)⟩,
    ?_, ?_, ?_, ?_⟩
  · simp only [undo, hh1, hgl, hdl, hrepl, holast, hjr, hreplLast]
    exact hupd2
  · rw [(setSelection_frame _ _ _).1]
    show L2.map (·.text) =
      (st1.lines.map (·.text)).take fl ++ old ++
        (st1.lines.map (·.text)).drop (fl + N)
    rw [htexts2, show fl + N - 1 + 1 = fl + N by omega,
      replacement_core_eq old rF.text r.text hold]
  · rw [holastD]
    exact (setSelection_collapsed _ _ hshREC).1
  · rw [(setSelection_collapsed _ _ hshREC).2, (setSelection_collapsed _ _ hshREC).1]

/-- C3 (amended): with the history enabled and empty (so the edit starts its
own `done` record), an edit through `replaceLines` followed immediately by
`undo()` restores the exact line texts the buffer had before the edit; the
selection, however, becomes a COLLAPSED cursor on the last replaced line at
the column computed by `editEnd` (the longest-common-suffix boundary
between the current and the restored last line), not the pre-edit
selection. -/
theorem C3_undo_after_single_edit (st : EditorState) (h0 : History) (now : Int)
    (fl tl fch tch : Nat) (code : Str) (selF selT : Pos) (lF lL : Line)
    (hh : st.history = some h0) (hdone : h0.done = [])
    (hsh : st.shiftSelecting = none)
    (hdepth : 1 ≤ st.undoDepth)
    (hF : st.lines.get? fl = some lF) (hL : st.lines.get? tl = some lL)
    (hflt : fl ≤ tl) (htl : tl < st.lines.length)
    (hfch : fch ≤ lF.text.length) (htch : tch ≤ lL.text.length) :
    ∃ st1 st2 : EditorState,
      replaceLines st now ⟨(fl : Int), (fch : Int)⟩ ⟨(tl : Int), (tch : Int)⟩ code
          selF selT = some st1 ∧
      undo st1 = some st2 ∧
      st2.lines.map (·.text) = st.lines.map (·.text) ∧
      (∃ r : Line, st1.lines.get? (fl + (jsSplitLines code).length - 1) = some r ∧
        st2.selection.sfrom = ⟨(tl : Int), ((editEnd r.text lL.text : Nat) : Int)⟩ ∧
        st2.selection.sto = st2.selection.sfrom) := by
  obtain ⟨st1, L1, hrl, hlines1, hh1, hsh1', htexts⟩ := replaceLines_fresh st h0 now
    fl tl fch tch code selF selT lF lL hh hdone hdepth hF hL hflt htl hfch htch
  have hsh1 : st1.shiftSelecting = none := hsh1'.trans hsh
  have hnt := jsSplitLines_ne_nil code
  have hN1 : 1 ≤ (jsSplitLines code).length := by
    cases hc : (jsSplitLines code).length with
    | zero => rw [List.length_eq_zero] at hc; exact absurd hc hnt
    | succ n => omega
  have hmapl : (st.lines.map (·.text)).length = st.lines.length := List.length_map _ _
  have hcore : (if (jsSplitLines code).length = 1 then
      [lF.text.take fch ++ (jsSplitLines code).headD [] ++ lL.text.drop tch]
     else
      (lF.text.take fch ++ (jsSplitLines code).headD []) ::
        (((jsSplitLines code).drop 1).dropLast ++
          [(jsSplitLines code).getLastD [] ++ lL.text.drop tch])).length =
      (jsSplitLines code).length := by
    by_cases hone : (jsSplitLines code).length = 1
    · rw [if_pos hone, hone]
      rfl
    · rw [if_neg hone]
      simp only [List.length_cons, List.length_append, List.length_dropLast,
        List.length_drop, List.length_nil]
      omega
  have hAlen : ((st.lines.map (·.text)).take fl).length = fl := by
    rw [List.length_take, hmapl]
    exact min_eq_left (by omega)
  have hT1take : (L1.map (·.text)).take fl = (st.lines.map (·.text)).take fl := by
    rw [htexts, List.append_assoc]
    exact List.take_left' hAlen
  have hT1drop : (L1.map (·.text)).drop (fl + (jsSplitLines code).length) =
      (st.lines.map (·.text)).drop (tl + 1) := by
    rw [htexts]
    refine List.drop_left' ?_
    rw [List.length_append, hAlen, hcore]
  have hlenT1 : (L1.map (·.text)).length =
      fl + (jsSplitLines code).length + (st.lines.length - (tl + 1)) := by
    rw [htexts, List.length_append, List.length_append, hAlen, hcore,
      List.length_drop, hmapl]
  have hL1len : L1.length =
      fl + (jsSplitLines code).length + (st.lines.length - (tl + 1)) := by
    rw [← hlenT1, List.length_map]
  obtain ⟨rF, hrFL1⟩ : ∃ x, L1.get? fl = some x := by
    cases hc : L1.get? fl with
    | none => rw [List.get?_eq_none] at hc; omega
    | some x => exact ⟨x, rfl⟩
  obtain ⟨r, hrL1⟩ : ∃ x, L1.get? (fl + (jsSplitLines code).length - 1) = some x := by
    cases hc : L1.get? (fl + (jsSplitLines code).length - 1) with
    | none => rw [List.get?_eq_none] at hc; omega
    | some x => exact ⟨x, rfl⟩
  have holdlen : (((st.lines.map (·.text)).drop fl).take (tl + 1 - fl)).length =
      tl + 1 - fl := by
    rw [List.length_take, List.length_drop, hmapl]
    exact min_eq_left (by omega)
  have holdlast : (((st.lines.map (·.text)).drop fl).take (tl + 1 - fl)).getLast? =
      some lL.text := by
    rw [getLast?_drop_take _ fl (tl + 1 - fl) (by omega) (by rw [hmapl]; omega)]
    rw [show fl + (tl + 1 - fl) - 1 = tl by omega, List.get?_map, hL]
    rfl
  have hrF1 : st1.lines.get? fl = some rF := by
    rw [hlines1]
    exact hrFL1
  have hr1 : st1.lines.get? (fl + (jsSplitLines code).length - 1) = some r := by
    rw [hlines1]
    exact hrL1
  have hlen1 : fl + (jsSplitLines code).length ≤ st1.lines.length := by
    rw [hlines1]
    omega
  obtain ⟨st2, hundo, htexts2, hsf, hsto⟩ := undo_single_record st1 now fl
    (jsSplitLines code).length (((st.lines.map (·.text)).drop fl).take (tl + 1 - fl))
    rF r hh1 hsh1 hN1 (by rw [holdlen]; omega) hrF1 hr1 hlen1
  refine ⟨st1, st2, hrl, hundo, ?_, r, hr1, ?_, hsto⟩
  · rw [htexts2, hlines1, hT1take, hT1drop]
    have hre : ((st.lines.map (·.text)).drop fl).drop (tl + 1 - fl) =
        (st.lines.map (·.text)).drop (tl + 1) := by
      rw [List.drop_drop, show fl + (tl + 1 - fl) = tl + 1 by omega]
    rw [← hre, List.append_assoc, List.take_append_drop, List.take_append_drop]
  · rw [hsf]
    have hgd : (((st.lines.map (·.text)).drop fl).take (tl + 1 - fl)).getLastD [] =
        lL.text := by
      rw [List.getLastD_eq_getLast?, holdlast]
      rfl
    rw [hgd, holdlen,
      show (fl : Int) + ((tl + 1 - fl : Nat) : Int) - 1 = (tl : Int) by omega]

/-- Witness for C3's amended theorem: typing `"X"` at the end of the
one-line document `"abc"` and undoing it. -/
theorem C3_undo_after_single_edit_witness :
    ∃ st1 st2 : EditorState,
      replaceLines demoStateAbc 1000 ⟨((0 : Nat) : Int), ((3 : Nat) : Int)⟩
          ⟨((0 : Nat) : Int), ((3 : Nat) : Int)⟩ ("X".toList) ⟨0, 4⟩ ⟨0, 4⟩ =
        some st1 ∧
      undo st1 = some st2 ∧
      st2.lines.map (·.text) = demoStateAbc.lines.map (·.text) ∧
      (∃ r : Line,
        st1.lines.get? (0 + (jsSplitLines ("X".toList)).length - 1) = some r ∧
        st2.selection.sfrom = ⟨((0 : Nat) : Int),
          ((editEnd r.text (Line.ofText ("abc".toList)).text : Nat) : Int)⟩ ∧
        st2.selection.sto = st2.selection.sfrom) :=
  C3_undo_after_single_edit demoStateAbc History.new 1000 0 0 3 3 ("X".toList)
    ⟨0, 4⟩ ⟨0, 4⟩ (Line.ofText ("abc".toList)) (Line.ofText ("abc".toList))
    rfl rfl rfl (by decide) (by decide) (by decide) (by decide) (by decide)
    (by decide) (by decide)

/-! ## C7: multi-line literal search edge alignment -/

/-- C7: the multi-line matcher does NOT implement the claimed edge
alignment.  The loop reads `target[reverse ? idx-- : idx++]` — a
POST-increment — and `idx` is never advanced past the first fragment
before the loop, so every line after the first is compared against the
PREVIOUS pattern fragment.  For the forward pattern `"foo\nbar\nbaz"`:
the document `["xfoo", "bar", "bazy"]`, which satisfies the claim's
conditions exactly (line 0 ends with `"foo"`, line 1 equals `"bar"`,
line 2 starts with `"baz"`), produces no match; the document
`["xfoo", "foo", "barz"]`, which violates them (line 1 is `"foo"`, not
`"bar"`), is reported as a match `[{0,1}, {2,3}]` — the matcher wants
line 1 to equal fragment 0 and line 2 to start with fragment 1. -/
theorem C7_multiline_postincrement_bug :
    multiMatch [("xfoo".toList), ("bar".toList), ("bazy".toList)]
        [("foo".toList), ("bar".toList), ("baz".toList)] id false ⟨0, 0⟩ =
      some none ∧
    multiMatch [("xfoo".toList), ("foo".toList), ("barz".toList)]
        [("foo".toList), ("bar".toList), ("baz".toList)] id false ⟨0, 0⟩ =
      some (some (⟨0, 1⟩, ⟨2, 3⟩)) := by
  refine ⟨by decide, by decide⟩

/-! ## C8: `getStateBefore` -/

/-- The backward search returns the early `null` when every line in the
window `[lim, s]` exists and is uncached (and `0 < lim`, so the document
start is never reached first). -/
theorem backSearch_early {σ : Type} (ls : List (HLine σ)) (startSt : σ) (lim : Int)
    (hlim : 0 < lim) :
    ∀ s : Nat, (∀ k : Nat, lim ≤ (k : Int) → k ≤ s →
      ∃ hl, ls.get? k = some hl ∧ hl.stateAfter = none) →
      backSearch ls startSt lim (s + 1) = some none := by
  intro s
  induction s with
  | zero =>
    intro _
    simp only [backSearch]
    rw [if_pos (show (((0 : Nat)) : Int) < lim by omega)]
  | succ s ih =>
    intro hwin
    by_cases hc : (((s + 1 : Nat)) : Int) < lim
    · simp only [backSearch]
      rw [if_pos hc]
    · obtain ⟨hl, hget, hnone⟩ := hwin (s + 1) (by omega) (le_refl _)
      simp only [backSearch, if_neg hc, hget, hnone]
      exact ih (fun k hk1 hk2 => hwin k hk1 (by omega))

/-- The backward search finds the cached state at line `j` when every line
strictly between `j` and the start index is uncached and the limit is not
crossed on the way; it reports resume index `j + 1`. -/
theorem backSearch_found {σ : Type} (ls : List (HLine σ)) (startSt : σ) (lim : Int)
    (j : Nat) (hlJ : HLine σ) (st0 : σ)
    (hgetJ : ls.get? j = some hlJ) (hstJ : hlJ.stateAfter = some st0)
    (hjlim : lim ≤ (j : Int)) :
    ∀ s : Nat, j ≤ s →
      (∀ k : Nat, j < k → k ≤ s →
        ∃ hl, ls.get? k = some hl ∧ hl.stateAfter = none) →
      backSearch ls startSt lim (s + 1) = some (some (j + 1, st0)) := by
  intro s
  induction s with
  | zero =>
    intro hj _
    have hj0 : j = 0 := Nat.le_zero.mp hj
    subst hj0
    simp only [backSearch, if_neg (show ¬((((0 : Nat)) : Int) < lim) by omega),
      hgetJ, hstJ]
  | succ s ih =>
    intro hj hwin
    by_cases hje : j = s + 1
    · subst hje
      simp only [backSearch, hgetJ, hstJ]
      rw [if_neg (show ¬((((s + 1 : Nat)) : Int) < lim) by omega)]
    · have hjs : j ≤ s := by omega
      obtain ⟨hl, hget, hnone⟩ := hwin (s + 1) (by omega) (le_refl _)
      have hcond : ¬((((s + 1 : Nat)) : Int) < lim) := by omega
      simp only [backSearch, if_neg hcond, hget, hnone]
      exact ih hjs (fun k hk1 hk2 => hwin k hk1 (by omega))

/-- Writing back the element already stored at an index is the identity. -/
theorem set_get?_self {α : Type} (l : List α) : ∀ (n : Nat) (a : α),
    l.get? n = some a → l.set n a = l := by
  induction l with
  | nil =>
    intro n a h
    simp [List.get?] at h
  | cons x xs ih =>
    intro n a h
    cases n with
    | zero =>
      simp only [List.get?] at h
      simp only [List.set]
      rw [← Option.some.inj h]
    | succ m =>
      simp only [List.get?] at h
      simp only [List.set]
      rw [ih m a h]

/-- The forward re-highlight loop: it succeeds whenever the `c` lines from
`i` exist, returns the state folded across their texts, caches a state on
every line it visits, leaves the line texts unchanged, and leaves every
other line untouched. -/
theorem backfill_spec {σ : Type} (tok : σ → Str → σ) :
    ∀ (c : Nat) (ls : List (HLine σ)) (i : Nat) (st : σ),
      (∀ k : Nat, k < c → i + k < ls.length) →
      ∃ ls2 : List (HLine σ),
        backfill tok ls i c st =
          some (ls2, List.foldl tok st (((ls.map (·.text)).drop i).take c)) ∧
        ls2.map (·.text) = ls.map (·.text) ∧
        (∀ k : Nat, k < c → ∃ hl2, ls2.get? (i + k) = some hl2 ∧
          hl2.stateAfter ≠ none) ∧
        (∀ m : Nat, m < i ∨ i + c ≤ m → ls2.get? m = ls.get? m) := by
  intro c
  induction c with
  | zero =>
    intro ls i st _
    refine ⟨ls, by simp [backfill], rfl, ?_, fun m _ => rfl⟩
    intro k hk
    exact absurd hk (Nat.not_lt_zero k)
  | succ c ih =>
    intro ls i st hb
    have hi : i < ls.length := by
      have := hb 0 (Nat.succ_pos c)
      omega
    obtain ⟨hl, hget⟩ : ∃ hl, ls.get? i = some hl := by
      cases hc2 : ls.get? i with
      | none => rw [List.get?_eq_none] at hc2; omega
      | some x => exact ⟨x, rfl⟩
    have hTset : (ls.set i ⟨hl.text, some (tok st hl.text)⟩).map (·.text) =
        ls.map (·.text) := by
      rw [List.map_set]
      exact set_get?_self _ i _ (by rw [List.get?_map, hget]; rfl)
    obtain ⟨ls2, hbf, hmap, hwin, hfr⟩ := ih
      (ls.set i ⟨hl.text, some (tok st hl.text)⟩) (i + 1) (tok st hl.text)
      (by
        intro k hk
        rw [List.length_set]
        have := hb (k + 1) (by omega)
        omega)
    have hlg2 : ls[i] = hl := by
      have h0 : ls[i]? = some hl := by
        rw [← List.get?_eq_getElem?]
        exact hget
      rw [List.getElem?_eq_getElem hi] at h0
      exact Option.some.inj h0
    have h1 : (ls.map (·.text)).drop i =
        hl.text :: (ls.map (·.text)).drop (i + 1) := by
      rw [List.drop_eq_getElem_cons (show i < (ls.map (·.text)).length by
        rw [List.length_map]; exact hi)]
      rw [List.getElem_map, hlg2]
    have hdropT : ((ls.map (·.text)).drop i).take (c + 1) =
        hl.text :: ((ls.map (·.text)).drop (i + 1)).take c := by
      rw [h1, List.take_succ_cons]
    refine ⟨ls2, ?_, ?_, ?_, ?_⟩
    · simp only [backfill, hget]
      rw [hdropT, List.foldl_cons, hbf, hTset]
    · rw [hmap, hTset]
    · intro k hk
      cases k with
      | zero =>
        refine ⟨⟨hl.text, some (tok st hl.text)⟩, ?_, by simp⟩
        have hfri := hfr i (Or.inl (by omega))
        rw [Nat.add_zero, hfri]
        exact List.get?_set_eq_of_lt _ hi
      | succ m =>
        obtain ⟨hl2, hg2, hs2⟩ := hwin m (by omega)
        refine ⟨hl2, ?_, hs2⟩
        rw [show i + (m + 1) = i + 1 + m by omega]
        exact hg2
    · intro m hm
      rcases hm with h | h
      · have h2 := hfr m (Or.inl (by omega))
        rw [h2]
        exact List.get?_set_ne _ _ (by omega)
      · have h2 := hfr m (Or.inr (by omega))
        rw [h2]
        exact List.get?_set_ne _ _ (by omega)

/-- C8 (amended): with no cached state in the 40-line window and `n ≥ 41`,
`getStateBefore(n)` returns "unknown" (`null`) and does NOT enqueue `n` —
the early `return null` skips the whole rest of the function, so the work
queue and the line cache are left exactly as they were.  When a cached
state is found at line `j` within the bound, the function backfills a
cached state on every line of `(j, n)`, returns the state folded across
those lines' texts, leaves every line text and every line outside `(j, n)`
untouched, and pushes `n` onto the work queue exactly when line `n` itself
is still uncached. -/
theorem C8_getStateBefore_null_and_backfill {σ : Type} (tok : σ → Str → σ)
    (startSt : σ) (ls : List (HLine σ)) (work : List Nat) (n : Nat) :
    (41 ≤ n →
      (∀ k : Nat, n - 40 ≤ k → k < n →
        ∃ hl, ls.get? k = some hl ∧ hl.stateAfter = none) →
      getStateBefore tok startSt ls work n = some (none, ls, work)) ∧
    (∀ (j : Nat) (hlJ hlN : HLine σ) (st0 : σ),
      ls.get? j = some hlJ → hlJ.stateAfter = some st0 →
      j < n → (n : Int) - 40 ≤ (j : Int) → n < ls.length → ls.get? n = some hlN →
      (∀ k : Nat, j < k → k < n →
        ∃ hl, ls.get? k = some hl ∧ hl.stateAfter = none) →
      ∃ ls2 : List (HLine σ),
        getStateBefore tok startSt ls work n =
          some (some (List.foldl tok st0
              (((ls.map (·.text)).drop (j + 1)).take (n - (j + 1)))),
            ls2,
            if hlN.stateAfter.isNone then work ++ [n] else work) ∧
        ls2.map (·.text) = ls.map (·.text) ∧
        (∀ k : Nat, j < k → k < n →
          ∃ hl2, ls2.get? k = some hl2 ∧ hl2.stateAfter ≠ none) ∧
        (∀ m : Nat, m ≤ j ∨ n ≤ m → ls2.get? m = ls.get? m)) := by
  constructor
  · intro hn hwinA
    have hbs := backSearch_early ls startSt ((n : Int) - 40) (by omega) (n - 1)
      (fun k hk1 hk2 => hwinA k (by omega) (by omega))
    rw [show n - 1 + 1 = n by omega] at hbs
    simp only [getStateBefore, hbs]
  · intro j hlJ hlN st0 hgetJ hstJ hjn hjlim hnlen hgetN hwinB
    have hbs := backSearch_found ls startSt ((n : Int) - 40) j hlJ st0 hgetJ hstJ
      hjlim (n - 1) (by omega) (fun k hk1 hk2 => hwinB k hk1 (by omega))
    rw [show n - 1 + 1 = n by omega] at hbs
    obtain ⟨ls2, hbf, hmap, hwin2, hfr2⟩ := backfill_spec tok (n - (j + 1)) ls (j + 1)
      st0 (by intro k hk; omega)
    have hg2n : ls2.get? n = some hlN := by
      rw [hfr2 n (Or.inr (by omega))]
      exact hgetN
    refine ⟨ls2, ?_, hmap, ?_, ?_⟩
    · simp only [getStateBefore, hbs, hbf, hg2n]
    · intro k hk1 hk2
      obtain ⟨hl2, hg2, hs2⟩ := hwin2 (k - (j + 1)) (by omega)
      refine ⟨hl2, ?_, hs2⟩
      rw [show k = j + 1 + (k - (j + 1)) by omega]
      exact hg2
    · intro m hm
      rcases hm with h | h
      · exact hfr2 m (Or.inl (by omega))
      · exact hfr2 m (Or.inr (by omega))

/-- C8 counterexample: 41 lines, none cached, `n = 41` (so the whole
40-line window is uncached and the document start is out of reach):
`getStateBefore` returns "unknown" and the work queue stays `[]` — the
claim said `n` is enqueued, but `41` is not in the resulting queue. -/
theorem C8_counterexample :
    getStateBefore (fun _ _ => ()) ()
        (List.replicate 41 (⟨[], none⟩ : HLine Unit)) [] 41 =
      some (none, List.replicate 41 (⟨[], none⟩ : HLine Unit), []) ∧
    (41 : Nat) ∉ ([] : List Nat) := by
  refine ⟨by decide, by decide⟩

/-- `List.replicate` holds its element at every in-range index. -/
theorem replicate_get?_lt {α : Type} (a : α) :
    ∀ (m k : Nat), k < m → (List.replicate m a).get? k = some a := by
  intro m
  induction m with
  | zero =>
    intro k hk
    exact absurd hk (Nat.not_lt_zero k)
  | succ m ih =>
    intro k hk
    cases k with
    | zero => rfl
    | succ k2 => exact ih k2 (by omega)

/-- Witness for C8's amended theorem on the 41-uncached-lines document. -/
theorem C8_getStateBefore_witness :
    getStateBefore (fun _ _ => ()) ()
        (List.replicate 41 (⟨[], none⟩ : HLine Unit)) [] 41 =
      some (none, List.replicate 41 (⟨[], none⟩ : HLine Unit), []) :=
  (C8_getStateBefore_null_and_backfill (fun _ _ => ()) ()
      (List.replicate 41 (⟨[], none⟩ : HLine Unit)) [] 41).1 (by decide)
    (fun k _ hk2 => ⟨⟨[], none⟩,
      replicate_get?_lt (⟨[], none⟩ : HLine Unit) 41 k hk2, rfl⟩)

/-- Witness for C9 with wildly out-of-range positions on a one-line
buffer. -/
theorem C9_clip_and_replaceRange_total_witness :
    (∃ q lq, clipPosition demoStateAbc ⟨-5, 99⟩ = some q ∧
      demoStateAbc.lines.get? q.line.toNat = some lq ∧
      0 ≤ q.line ∧ q.line ≤ (demoStateAbc.lines.length : Int) - 1 ∧
      0 ≤ q.ch ∧ q.ch ≤ (lq.text.length : Int)) ∧
    (∃ res, replaceRange demoStateAbc 0 ("zz".toList) ⟨100, -3⟩ ⟨-1, 50⟩ = some res) :=
  C9_clip_and_replaceRange_total demoStateAbc ⟨-5, 99⟩ ⟨100, -3⟩ ⟨-1, 50⟩ 0
    ("zz".toList) (by decide)

end Ascend
